import Mathlib

/-!
Shallow embedding of `readmd.py`, a Markdown reflow tool, together with
proofs about its specification claims.

Lines are modelled as lists of characters (`Str`).  The mutable Python
state (group list, break flags, element-state dicts) becomes explicit
records, and printing to stdout becomes an `Output` value that also
models Python 2's soft-space behaviour of `print x,`.  The mutually
recursive pair `_groupify` / `_render_group` is embedded with an explicit
fuel parameter: the per-line machinery is written once, parameterised by
the function used for the recursive re-grouping call, and `groupifyFuel`
ties the knot, decreasing fuel at exactly the one recursion site.
-/

set_option maxRecDepth 8000

namespace Readmd

/-- Lines are lists of characters. -/
abbrev Str := List Char

/-- Convert a string literal to the line representation. -/
def str (s : String) : Str := s.toList

/-- `NUM_SPACES = 4` from the source. -/
def NUM_SPACES : Nat := 4

/-- `SPACES = ' ' * NUM_SPACES`. -/
def SPACES : Str := List.replicate NUM_SPACES ' '

/-- `MIN_WIDTH = 10` from the source. -/
def MIN_WIDTH : Nat := 10

/-- Python's whitespace set, as used by `str.strip()` and regex `\s`. -/
def isWs (c : Char) : Bool :=
  c = ' ' || c = '\t' || c = '\n' || c = '\r' || c = '\x0b' || c = '\x0c'

/-- Drop characters satisfying `p` from the right end. -/
def stripRight (p : Char → Bool) (s : Str) : Str :=
  (s.reverse.dropWhile p).reverse

/-- Drop characters satisfying `p` from both ends (Python `str.strip`). -/
def stripBoth (p : Char → Bool) (s : Str) : Str :=
  stripRight p (s.dropWhile p)

/-- `line.strip()` — strip whitespace from both ends. -/
def stripWs (s : Str) : Str := stripBoth isWs s

/-- `line.strip('\n\r')`. -/
def stripNl (s : Str) : Str := stripBoth (fun c => c = '\n' || c = '\r') s

/-- `line.strip(' ')`. -/
def stripSpacesBoth (s : Str) : Str := stripBoth (fun c => c = ' ') s

/-- `line.strip('#')`. -/
def stripHashes (s : Str) : Str := stripBoth (fun c => c = '#') s

/-- `_end_space.sub('', s)` with `_end_space = re.compile(' +$')`. -/
def stripTrailingSpaces (s : Str) : Str := stripRight (fun c => c = ' ') s

/-- `str.expandtabs(NUM_SPACES)`: advance each tab to the next multiple
of `NUM_SPACES`, tracking the column (reset on line terminators). -/
def expandtabsAux : Str → Nat → Str
  | [], _ => []
  | c :: cs, col =>
    if c = '\t' then
      let k := NUM_SPACES - col % NUM_SPACES
      List.replicate k ' ' ++ expandtabsAux cs (col + k)
    else if c = '\n' || c = '\r' then c :: expandtabsAux cs 0
    else c :: expandtabsAux cs (col + 1)

/-- `line.strip('\n\r').expandtabs(NUM_SPACES)` — applied to every line
the grouper reads. -/
def normalizeLine (s : Str) : Str := expandtabsAux (stripNl s) 0

/-! ### The regex patterns for special state types, as total functions -/

/-- `_setext_header = re.compile('^(=+|-+)\s*$')`; returns the first
character of the captured run (`m.groups()[0][0]`) on a match.  The run
is a maximal block of `=` or of `-`, and everything after it must be
whitespace. -/
def setextMatch (s : Str) : Option Char :=
  match s with
  | [] => none
  | c :: _ =>
    if c = '=' || c = '-' then
      if (s.dropWhile (fun d => d = c)).all isWs then some c else none
    else none

/-- `_atx_header = re.compile('^(#+)\s*')` used with `.match`; returns the
captured run of `#` characters. -/
def atxHashes (s : Str) : Option Str :=
  match s with
  | c :: _ => if c = '#' then some (s.takeWhile (fun d => d = '#')) else none
  | [] => none

/-- Worker for `_hr`: the pattern `^(([*\-_])\s*){3,}$` matches a block of
at least three characters from `{*,-,_}`, each optionally followed by
whitespace (so whitespace may appear anywhere after the first rule
character). `n` counts the rule characters seen so far. -/
def hrAux : Str → Nat → Bool
  | [], n => 3 ≤ n
  | c :: cs, n =>
    if c = '*' || c = '-' || c = '_' then hrAux cs (n + 1)
    else if isWs c && 1 ≤ n then hrAux cs n
    else false

/-- `_hr = re.compile('^(([*\-_])\s*){3,}$')`. -/
def hrMatch (s : Str) : Bool := hrAux s 0

/-- The last rule character of a horizontal-rule line — the value of
`match.groups()[0]` for `_hr` (the last repetition of the group). -/
def hrLastChar (s : Str) : Option Char := (stripRight isWs s).getLast?

/-- `_ul_indent = re.compile('^ {0,3}([*+\-*])\s\s*')`: up to three leading
spaces, a bullet from `{*,+,-}`, then at least one whitespace character
(the greedy match swallows the whole whitespace run).  Returns the bullet
and the line with the matched prefix removed (`_ul_indent.sub('', line)`).  -/
def ulParse (s : Str) : Option (Char × Str) :=
  let k := (s.takeWhile (fun c => c = ' ')).length
  if k ≤ 3 then
    match s.drop k with
    | c :: rest =>
      if c = '*' || c = '+' || c = '-' then
        match rest with
        | d :: _ => if isWs d then some (c, rest.dropWhile isWs) else none
        | [] => none
      else none
    | [] => none
  else none

/-- `_ol_indent = re.compile('^ {0,3}\d+\.\s\s*')`: up to three leading
spaces, one or more digits, a dot, then at least one whitespace character.
Returns the line with the matched prefix removed. -/
def olParse (s : Str) : Option Str :=
  let k := (s.takeWhile (fun c => c = ' ')).length
  if k ≤ 3 then
    let t := s.drop k
    let ds := t.takeWhile Char.isDigit
    if ds.isEmpty then none
    else
      match t.drop ds.length with
      | c :: rest =>
        if c = '.' then
          match rest with
          | d :: _ => if isWs d then some (rest.dropWhile isWs) else none
          | [] => none
        else none
      | [] => none
  else none

/-- `_blockquote = re.compile('^>\s*')`: a `>` at column 0 followed by any
run of whitespace.  Returns the line with the matched prefix removed. -/
def bqParse (s : Str) : Option Str :=
  match s with
  | c :: rest => if c = '>' then some (rest.dropWhile isWs) else none
  | [] => none

/-- `_code = re.compile('^ {4,}[^ ]')`: at least four leading spaces
followed by a non-space character. -/
def codeMatch (s : Str) : Bool :=
  4 ≤ (s.takeWhile (fun c => c = ' ')).length && !(s.dropWhile (fun c => c = ' ')).isEmpty

/-- `_indented = re.compile('^ {4,}')`. -/
def indentedMatch (s : Str) : Bool :=
  4 ≤ (s.takeWhile (fun c => c = ' ')).length

/-! ### Element classification state -/

/-- `TYPE_HR = 1`. -/
def TYPE_HR : Nat := 1
/-- `TYPE_UL = 2`. -/
def TYPE_UL : Nat := 2
/-- `TYPE_OL = 3`. -/
def TYPE_OL : Nat := 3
/-- `TYPE_BLOCK = 4`. -/
def TYPE_BLOCK : Nat := 4
/-- `TYPE_CODE = 5`. -/
def TYPE_CODE : Nat := 5

/-- The classification `state` dict of `_groupify`: optional `type`,
the two prefixes (defaulting to `''` via `state.get(..., '')`), the
ordered-list counter (`state.get('number', 0)` when absent) and the
horizontal-rule character. -/
structure ElemState where
  type : Option Nat := none
  prefixFirst : Str := []
  prefixRest : Str := []
  number : Option Nat := none
  character : Option Char := none
  deriving Repr, DecidableEq

/-- The `while len(prefix_first) < 4: prefix_first += ' '` padding loop of
`_increment_ol_state`; four iterations always suffice since the prefix
`'%s. '` is never empty. -/
def padLoop : Nat → Str → Str
  | 0, s => s
  | n + 1, s => if s.length < 4 then padLoop n (s ++ [' ']) else s

/-- The first-line prefix `'%s. '` of an ordered item, padded to at least
four characters. -/
def olPrefixOf (number : Nat) : Str :=
  padLoop 4 (Nat.toDigits 10 number ++ ['.', ' '])

/-- `_increment_ol_state(state, prev_state)`: bump the counter seeded from
`prev_state` and store the padded first-line prefix. -/
def incrementOlState (state prevState : ElemState) : ElemState :=
  let number := prevState.number.getD 0 + 1
  { state with number := some number, prefixFirst := olPrefixOf number }

/-! ### The Text Fitter (`_fit_text`) -/

/-- `section.split(' ')`: split on single spaces, keeping empty pieces. -/
def splitSp : Str → List Str
  | [] => [[]]
  | c :: cs =>
    if c = ' ' then [] :: splitSp cs
    else
      match splitSp cs with
      | w :: t => (c :: w) :: t
      | [] => [[c]]

/-- `[x for x in section.split(' ') if x]` — the word list of a section. -/
def wordsOf (s : Str) : List Str := (splitSp s).filter (fun w => ¬ w.isEmpty)

/-- `words[-1] += '  '` — append the two-space hard-break marker to the
last word. -/
def withLastMarker : List Str → List Str
  | [] => []
  | [w] => [w ++ [' ', ' ']]
  | w :: ws => w :: withLastMarker ws

/-- The word list `_fit_text` actually packs: the words of the section,
with the hard-break marker appended to the last word when `with_break`
is set and the list is non-empty. -/
def adjWords (s : Str) (withBreak : Bool) : List Str :=
  let words := wordsOf s
  if withBreak && !words.isEmpty then withLastMarker words else words

/-- The packing loop of `_fit_text`: `i` is the `enumerate` index, `cur`
the line being accumulated, `result` the finished lines.  A word starts a
new line exactly when `cur` is non-empty, the width is not `-1`, and
`len(cur) + len(word) + 1 > width`. -/
def fitWords (width : Int) : Nat → List Str → List Str → Str → List Str
  | _, [], result, cur => result ++ [cur]
  | i, w :: ws, result, cur =>
    if !cur.isEmpty && width ≠ -1 && ((cur.length : Int) + w.length + 1 > width) then
      fitWords width (i + 1) ws (result ++ [cur]) w
    else
      fitWords width (i + 1) ws result (cur ++ (if i = 0 then [] else [' ']) ++ w)

/-- `_fit_text(section, width, with_break)`. -/
def fitText (s : Str) (width : Int) (withBreak : Bool) : List Str :=
  fitWords width 0 (adjWords s withBreak) [] []

/-! ### Output model

Python 2 `print x,` writes `x` and arms the soft-space flag; the next
`print` first writes a single space on the same line.  `pending` holds
the text of an unterminated output line. -/

/-- Printed output: finished lines plus an optional unterminated line. -/
structure Output where
  lines : List Str := []
  pending : Option Str := none
  deriving Repr, DecidableEq

/-- `print s` — complete a line (joining any pending soft-space text). -/
def printFull (o : Output) (s : Str) : Output :=
  match o.pending with
  | some p => { lines := o.lines ++ [p ++ ' ' :: s], pending := none }
  | none => { lines := o.lines ++ [s], pending := none }

/-- `print s,` — write without a newline, arming the soft space. -/
def printSoft (o : Output) (s : Str) : Output :=
  match o.pending with
  | some p => { o with pending := some (p ++ ' ' :: s) }
  | none => { o with pending := some s }

/-- Output as the final list of lines: an unterminated trailing line is
flushed on process exit. -/
def finalOutput (o : Output) : List Str :=
  o.lines ++ (match o.pending with | some p => [p] | none => [])

/-! ### The Group Renderer (`_render_group`) -/

/-- `relative_width`: unbounded stays unbounded, otherwise the width minus
indent and the larger prefix, floored at `MIN_WIDTH`. -/
def relativeWidth (width : Int) (indent prefixFirst prefixRest : Str) : Int :=
  if width = -1 then width
  else max (MIN_WIDTH : Int)
    (width - (indent.length : Int) - (max prefixFirst.length prefixRest.length : Nat))

/-- `line.endswith('  ')`. -/
def endsTwoSpaces (l : Str) : Bool := l.reverse.take 2 = [' ', ' ']

/-- Whether line `i` of `n` closes the current section: it ends in two
spaces, is the `'\n'` sentinel, or is the last line of the group. -/
def sectionBreakAt (l : Str) (i n : Nat) : Bool :=
  endsTwoSpaces l || decide (l = ['\n']) || decide (i + 1 = n)

/-- The section accumulator after one line: the stripped line is joined
with a single space (except at index 0). -/
def sectionCurNext (l : Str) (i n : Nat) (cur : Str) : Str :=
  if sectionBreakAt l i n then []
  else cur ++ (if i = 0 then [] else [' ']) ++ stripWs l

/-- The finished sections after one line: on a section break, the
accumulated text is emitted (re-appending the two-space marker when the
line ends in two spaces); a `'\n'` sentinel additionally emits an empty
section. -/
def sectionAccNext (l : Str) (i n : Nat) (cur : Str) (acc : List Str) : List Str :=
  (if sectionBreakAt l i n then
      acc ++ [cur ++ (if i = 0 then [] else [' ']) ++ stripWs l ++
        (if endsTwoSpaces l then [' ', ' '] else [])]
    else acc) ++ (if decide (l = ['\n']) then [[]] else [])

/-- The section-accumulation loop of `_render_group`. -/
def sectionsAux : List Str → Nat → Nat → Str → List Str → List Str
  | [], _, _, _, acc => acc
  | l :: ls, i, n, cur, acc =>
    sectionsAux ls (i + 1) n (sectionCurNext l i n cur) (sectionAccNext l i n cur acc)

/-- The hard-break sections of a group in `_render_group`. -/
def sectionsOf (g : List Str) : List Str := sectionsAux g 0 g.length [] []

/-- Print the fitted lines of section `i`: line `j = 0` of section `i = 0`
uses `first_indent` and `prefix_first`, all others `indent` and
`prefix_rest` (Python's `0 == i == j`). -/
def printFittedLines (firstIndent indent prefixFirst prefixRest : Str) (i : Nat) :
    Nat → List Str → Output → Output
  | _, [], o => o
  | j, l :: ls, o =>
    let pre := if i = 0 && j = 0 then firstIndent ++ prefixFirst else indent ++ prefixRest
    printFittedLines firstIndent indent prefixFirst prefixRest i (j + 1) ls (printFull o (pre ++ l))

/-- The flatten-and-wrap loop over sections: each section is fitted at the
relative width, `with_break` set for every section but the last. -/
def flattenSections (relWidth : Int) (firstIndent indent prefixFirst prefixRest : Str)
    (n : Nat) : Nat → List Str → Output → Output
  | _, [], o => o
  | i, sec :: rest, o =>
    let fitted := fitText sec relWidth (decide (i + 1 < n))
    let o' := printFittedLines firstIndent indent prefixFirst prefixRest i 0 fitted o
    flattenSections relWidth firstIndent indent prefixFirst prefixRest n (i + 1) rest o'

/-- The verbatim (`is_pre`) loop: each line printed with the indent, the
first line using `first_indent`. -/
def printPreLines (firstIndent indent : Str) : Nat → List Str → Output → Output
  | _, [], o => o
  | i, l :: ls, o =>
    printPreLines firstIndent indent (i + 1) ls
      (printFull o ((if i = 0 then firstIndent else indent) ++ l))

/-- `prefix_first[:-1] if prefix_first.endswith(' ') else prefix_first`. -/
def trimOneTrailingSpace (s : Str) : Str :=
  if s.reverse.take 1 = [' '] then s.dropLast else s

/-- `_render_group`, parameterised by the function used for the recursive
`_groupify(iter(group), width, indent + prefix_rest)` call. -/
def renderGroupWith (recurse : List Str → Str → Output → Output)
    (group : List Str) (width : Int) (indent : Str) (isFirstRender : Bool)
    (prefixFirst prefixRest : Str) (lineAfter : Bool) (isPre : Bool)
    (o : Output) : Output :=
  let relWidth := relativeWidth width indent prefixFirst prefixRest
  let firstIndent := if isFirstRender then [] else indent
  let o' :=
    if isPre then printPreLines firstIndent indent 0 group o
    else if !prefixFirst.isEmpty && !prefixRest.isEmpty then
      let o1 := printSoft o (firstIndent ++ trimOneTrailingSpace prefixFirst)
      recurse group (indent ++ prefixRest) o1
    else
      let secs := sectionsOf group
      flattenSections relWidth firstIndent indent prefixFirst prefixRest secs.length 0 secs o
  if lineAfter then printFull o' (stripTrailingSpaces indent) else o'

/-! ### The Grouper / Classifier (`_groupify`) -/

/-- The mutable state of one `_groupify` invocation: the accumulated
`group`, the two break flags, the `first_render` flag, the previous and
current classification states, the output written so far, and a counter
of `_do_render_group` invocations (flush events), used to observe when a
flush happens. -/
structure GState where
  group : List Str := []
  hasBreak : Bool := false
  forcedBreak : Bool := false
  firstRender : Bool := true
  prevState : ElemState := {}
  state : ElemState := {}
  out : Output := {}
  flushes : Nat := 0
  deriving Repr, DecidableEq

/-- `_do_render_group(line_after)`: render the group with the current
state's parameters, then reset `first_render`, both break flags, and the
group. -/
def doRenderGroupWith (recurse : List Str → Str → Output → Output)
    (width : Int) (indent : Str) (lineAfter : Bool) (s : GState) : GState :=
  let o := renderGroupWith recurse s.group width indent s.firstRender
    s.state.prefixFirst s.state.prefixRest lineAfter
    (s.state.type == some TYPE_CODE) s.out
  { s with out := o, firstRender := false, hasBreak := false,
           forcedBreak := false, group := [], flushes := s.flushes + 1 }

/-- The first-non-empty-line classification of `_groupify` (the
`not was_continued and len(group) == 1` block): first-match-wins over
`SPECIAL_TYPES = (HR, UL, OL, BLOCK, CODE)`, replacing the state
wholesale and stripping the matched marker from the group's line. -/
def classifyStep (s : GState) (line : Str) : GState :=
  if hrMatch line then
    { s with prevState := s.state,
             state := { type := some TYPE_HR, character := hrLastChar line },
             hasBreak := true }
  else
    match ulParse line with
    | some (bullet, rest) =>
      { s with prevState := s.state,
               group := s.group.dropLast ++ [rest],
               state := { type := some TYPE_UL,
                          prefixFirst := bullet :: [' ', ' ', ' '],
                          prefixRest := SPACES } }
    | none =>
      match olParse line with
      | some rest =>
        { s with prevState := s.state,
                 group := s.group.dropLast ++ [rest],
                 state := { incrementOlState { type := some TYPE_OL } s.state with
                            prefixRest := SPACES } }
      | none =>
        match bqParse line with
        | some rest =>
          { s with prevState := s.state,
                   group := s.group.dropLast ++ [rest],
                   state := { type := some TYPE_BLOCK,
                              prefixFirst := ['>', ' '],
                              prefixRest := ['>', ' '] } }
        | none =>
          if codeMatch line then
            { s with prevState := s.state,
                     state := { type := some TYPE_CODE,
                                prefixFirst := SPACES, prefixRest := SPACES } }
          else { s with prevState := s.state, state := {} }

/-- `if TYPE_OL == state.get('type'): _increment_ol_state(state)` — the
counter bump when a list continues with a new marker line. -/
def olBump (s : GState) : GState :=
  if s.state.type = some TYPE_OL then
    { s with state := incrementOlState s.state s.state }
  else s

/-- The blockquote continuation body: with a pending break, append the
hard-break sentinel and consume the break; an empty remainder arms the
break for the next line. -/
def bqApply (s : GState) (rest : Str) : GState :=
  if s.hasBreak then
    (if rest.isEmpty then
      { s with group := s.group ++ [['\n']], hasBreak := true }
    else { s with group := s.group ++ [['\n']], hasBreak := false })
  else
    (if rest.isEmpty then { s with hasBreak := true } else s)

/-- The continuation attempt for the currently open special type; returns
the updated state, the (possibly marker-stripped) line, and
`was_continued`. -/
def contTry (recurse : List Str → Str → Output → Output)
    (width : Int) (indent : Str) (s : GState) (line : Str) : GState × Str × Bool :=
  if s.state.type = some TYPE_CODE then
    if !codeMatch line then (doRenderGroupWith recurse width indent true s, line, false)
    else (s, line, false)
  else if s.state.type = some TYPE_UL ∨ s.state.type = some TYPE_OL then
    match ulParse line with
    | some (_, rest) =>
      (olBump (doRenderGroupWith recurse width indent s.hasBreak s), rest, true)
    | none =>
      match olParse line with
      | some rest =>
        (olBump (doRenderGroupWith recurse width indent s.hasBreak s), rest, true)
      | none =>
        if s.hasBreak && indentedMatch line then
          ({ s with group := s.group ++ [['\n']] }, line, true)
        else (s, line, false)
  else if s.state.type = some TYPE_BLOCK then
    match bqParse line with
    | some rest => (bqApply s rest, rest, true)
    | none => (s, line, false)
  else (s, line, false)

/-- Append the line to the group, then classify a brand-new group's first
line (`not was_continued and len(group) == 1`). -/
def appendClassify (s : GState) (line : Str) (wasContinued : Bool) : GState :=
  if !wasContinued && ({ s with group := s.group ++ [line] } : GState).group.length = 1 then
    classifyStep { s with group := s.group ++ [line] } line
  else { s with group := s.group ++ [line] }

/-- After the continuation attempt: flush on a pending break when the
line did not continue the open element, then append and classify. -/
def contFinish (recurse : List Str → Str → Output → Output)
    (width : Int) (indent : Str) (p : GState × Str × Bool) : GState :=
  if !p.2.2 && p.1.hasBreak && !p.1.group.isEmpty then
    appendClassify (doRenderGroupWith recurse width indent true p.1) p.2.1 p.2.2
  else appendClassify p.1 p.2.1 p.2.2

/-- The non-header, non-blank branch of `_groupify`'s loop body: clear
`forced_break`, attempt continuation of the open special type, flush on a
pending break when continuation failed, append the (possibly
marker-stripped) line, and classify a brand-new group's first line. -/
def contentStep (recurse : List Str → Str → Output → Output)
    (width : Int) (indent : Str) (s : GState) (line : Str) : GState :=
  contFinish recurse width indent
    (contTry recurse width indent { s with forcedBreak := false } line)

/-- The Setext-header branch: pop the previous line as header text,
discard one more line and flush the rest if at least two lines remain,
clear the state, flush the header text alone (no trailing blank), flush a
synthetic underline matching the header length (with trailing blank), and
arm `forced_break`. -/
def setextStep (recurse : List Str → Str → Output → Output)
    (width : Int) (indent : Str) (s : GState) (underline : Char) : GState :=
  let aboveLine := (s.group.getLast?).getD []
  let s := { s with group := s.group.dropLast }
  let s := if s.group.length > 1 then
      doRenderGroupWith recurse width indent true { s with group := s.group.dropLast }
    else s
  let s := { s with prevState := s.state, state := {} }
  let s := { s with group := s.group ++ [aboveLine] }
  let s := doRenderGroupWith recurse width indent false s
  let s := { s with group := s.group ++ [List.replicate aboveLine.length underline] }
  let s := doRenderGroupWith recurse width indent true s
  { s with forcedBreak := true }

/-- The ATX-header branch: flush any pending group, clear the state, flush
the single line `hashes ++ ' ' ++ line.strip('#').strip(' ')` with a
trailing blank, and arm `forced_break`. -/
def atxStep (recurse : List Str → Str → Output → Output)
    (width : Int) (indent : Str) (s : GState) (hashes : Str) (line : Str) : GState :=
  let s := if !s.group.isEmpty then doRenderGroupWith recurse width indent true s else s
  let s := { s with prevState := s.state, state := {} }
  let s := { s with group := s.group ++ [stripSpacesBoth hashes ++ ' ' :: stripSpacesBoth (stripHashes line)] }
  let s := doRenderGroupWith recurse width indent true s
  { s with forcedBreak := true }

/-- One iteration of `_groupify`'s main loop on a raw line: normalize it,
then dispatch on blank line / Setext header (only without a pending
break) / ATX header / content. -/
def stepWith (recurse : List Str → Str → Output → Output)
    (width : Int) (indent : Str) (s : GState) (rawLine : Str) : GState :=
  let line := normalizeLine rawLine
  if (stripWs line).isEmpty then
    if s.forcedBreak then s else { s with hasBreak := true }
  else
    match (if s.hasBreak then none else setextMatch line) with
    | some underline => setextStep recurse width indent s underline
    | none =>
      match atxHashes line with
      | some hashes => atxStep recurse width indent s hashes line
      | none => contentStep recurse width indent s line

/-- Fold `stepWith` over the line stream. -/
def goLinesWith (recurse : List Str → Str → Output → Output)
    (width : Int) (indent : Str) : List Str → GState → GState
  | [], s => s
  | l :: ls, s => goLinesWith recurse width indent ls (stepWith recurse width indent s l)

/-- One `_groupify` invocation (given the recursion function): fresh
state, process all lines, and flush a non-empty final group without a
trailing blank. -/
def groupifyWith (recurse : List Str → Str → Output → Output)
    (lines : List Str) (width : Int) (indent : Str) (o : Output) : Output :=
  let s : GState := { out := o }
  let s := goLinesWith recurse width indent lines s
  if !s.group.isEmpty then (doRenderGroupWith recurse width indent false s).out
  else s.out

/-- `_groupify` with fuel for the renderer's recursive re-grouping call;
exhausted fuel leaves the output unchanged. -/
def groupifyFuel : Nat → List Str → Int → Str → Output → Output
  | 0, _, _, _, o => o
  | fuel + 1, lines, width, indent, o =>
    groupifyWith (fun g ind o' => groupifyFuel fuel g width ind o') lines width indent o

/-- The whole program on a resolved width: `_groupify(f, width)` from
`readmd`, with the output flushed to a list of lines. -/
def readmdFuel (fuel : Nat) (lines : List Str) (width : Int) : List Str :=
  finalOutput (groupifyFuel fuel lines width [] {})

/-! ### Helper notions used by the theorems -/

/-- Join a list of lines (or words) with single spaces. -/
def joinSp : List Str → Str
  | [] => []
  | [w] => w
  | w :: ws => w ++ ' ' :: joinSp ws

/-- `joinTail ws` is the text contributed by further words `ws`, each
preceded by one space. -/
def joinTail : List Str → Str
  | [] => []
  | w :: ws => ' ' :: (w ++ joinTail ws)

/-- Number of trailing spaces of a line. -/
def trailingSpaceCount (l : Str) : Nat :=
  (l.reverse.takeWhile (fun c => c = ' ')).length

/-! ### Lemmas about the Text Fitter -/

theorem joinSp_cons (w : Str) (ws : List Str) : joinSp (w :: ws) = w ++ joinTail ws := by
  induction ws generalizing w with
  | nil => simp [joinSp, joinTail]
  | cons x xs ih => simp [joinSp, joinTail, ih x]

theorem joinTail_append (xs ys : List Str) :
    joinTail (xs ++ ys) = joinTail xs ++ joinTail ys := by
  induction xs with
  | nil => simp [joinTail]
  | cons x t ih => simp [joinTail, ih]

theorem joinSp_append_last (res : List Str) (x : Str) (h : res ≠ []) :
    joinSp (res ++ [x]) = joinSp res ++ ' ' :: x := by
  match res with
  | [] => exact absurd rfl h
  | r :: rs =>
    rw [List.cons_append, joinSp_cons, joinSp_cons, joinTail_append]
    simp [joinTail]

theorem joinSp_append_extend (res : List Str) (a b : Str) :
    joinSp (res ++ [a ++ b]) = joinSp (res ++ [a]) ++ b := by
  match res with
  | [] => simp [joinSp]
  | r :: rs =>
    rw [List.cons_append, List.cons_append, joinSp_cons, joinSp_cons,
      joinTail_append, joinTail_append]
    simp [joinTail]

theorem fitWords_join (width : Int) (ws : List Str) :
    ∀ (i : Nat) (res : List Str) (cur : Str), 1 ≤ i →
      joinSp (fitWords width i ws res cur) = joinSp (res ++ [cur]) ++ joinTail ws := by
  induction ws with
  | nil => intro i res cur _; simp [fitWords, joinTail]
  | cons w t ih =>
    intro i res cur hi
    rw [fitWords]
    split
    · rw [ih (i + 1) (res ++ [cur]) w (by omega)]
      rw [joinSp_append_last (res ++ [cur]) w (by simp)]
      simp [joinTail]
    · have hi0 : ¬ i = 0 := by omega
      simp only [if_neg hi0]
      rw [ih (i + 1) res (cur ++ [' '] ++ w) (by omega)]
      rw [List.append_assoc cur [' '] w, joinSp_append_extend]
      simp [joinTail]

theorem fitText_join (s : Str) (width : Int) (b : Bool) :
    joinSp (fitText s width b) = joinSp (adjWords s b) := by
  unfold fitText
  cases h : adjWords s b with
  | nil => simp [fitWords, joinSp]
  | cons w0 t =>
    rw [fitWords]
    simp only [List.isEmpty_nil, Bool.not_true, Bool.false_and, Bool.false_eq_true,
      if_false, if_pos rfl, List.nil_append, ite_true, Nat.zero_add]
    rw [fitWords_join width t 1 [] w0 (by omega)]
    simp [joinSp_cons, joinSp]

theorem joinTail_withLastMarker (ws : List Str) (h : ws ≠ []) :
    joinTail (withLastMarker ws) = joinTail ws ++ [' ', ' '] := by
  induction ws with
  | nil => exact absurd rfl h
  | cons w t ih =>
    cases t with
    | nil => simp [withLastMarker, joinTail]
    | cons x u =>
      rw [show withLastMarker (w :: x :: u) = w :: withLastMarker (x :: u) from rfl]
      rw [joinTail, joinTail, ih (by simp)]
      simp

theorem joinSp_withLastMarker (ws : List Str) (h : ws ≠ []) :
    joinSp (withLastMarker ws) = joinSp ws ++ [' ', ' '] := by
  cases ws with
  | nil => exact absurd rfl h
  | cons w t =>
    cases t with
    | nil => simp [withLastMarker, joinSp]
    | cons x u =>
      rw [show withLastMarker (w :: x :: u) = w :: withLastMarker (x :: u) from rfl]
      rw [joinSp_cons, joinSp_cons, joinTail_withLastMarker (x :: u) (by simp)]
      simp

theorem splitSp_ne_nil (s : Str) : splitSp s ≠ [] := by
  cases s with
  | nil => simp [splitSp]
  | cons c cs =>
    rw [splitSp]
    split
    · simp
    · cases h : splitSp cs with
      | nil => simp
      | cons w t => simp

theorem splitSp_no_space (s : Str) : ∀ w ∈ splitSp s, ∀ c ∈ w, c ≠ ' ' := by
  induction s with
  | nil => intro w hw c hc; simp [splitSp] at hw; simp [hw] at hc
  | cons d cs ih =>
    intro w hw c hc
    rw [splitSp] at hw
    by_cases hd : d = ' '
    · rw [if_pos hd] at hw
      rcases List.mem_cons.mp hw with h | h
      · simp [h] at hc
      · exact ih w h c hc
    · rw [if_neg hd] at hw
      rcases hsp : splitSp cs with _ | ⟨w0, t⟩
      · exact absurd hsp (splitSp_ne_nil cs)
      · rw [hsp] at hw
        rcases List.mem_cons.mp hw with h | h
        · subst h
          rcases List.mem_cons.mp hc with h | h
          · subst h; exact hd
          · exact ih w0 (by rw [hsp]; exact List.mem_cons_self w0 t) c h
        · exact ih w (by rw [hsp]; exact List.mem_cons_of_mem w0 h) c hc

theorem wordsOf_mem (s : Str) (w : Str) (hw : w ∈ wordsOf s) :
    w ≠ [] ∧ ∀ c ∈ w, c ≠ ' ' := by
  unfold wordsOf at hw
  have h1 := List.of_mem_filter hw
  have h2 := List.mem_of_mem_filter hw
  refine ⟨?_, splitSp_no_space s w h2⟩
  simpa using h1

theorem wordsOf_ne_nil_of_nonspace (s : Str) (h : ∃ c ∈ s, c ≠ ' ') :
    wordsOf s ≠ [] := by
  induction s with
  | nil => simp at h
  | cons d cs ih =>
    unfold wordsOf splitSp
    by_cases hd : d = ' '
    · rw [if_pos hd]
      obtain ⟨c, hc, hcs⟩ := h
      rcases List.mem_cons.mp hc with h | h
      · exact absurd (h.trans hd) hcs
      · have := ih ⟨c, h, hcs⟩
        unfold wordsOf at this
        simpa using this
    · rw [if_neg hd]
      rcases hsp : splitSp cs with _ | ⟨w0, t⟩
      · exact absurd hsp (splitSp_ne_nil cs)
      · simp

/-- Membership description of the marker-adjusted word list. -/
theorem withLastMarker_mem (ws : List Str) :
    ∀ w ∈ withLastMarker ws, ∃ x ∈ ws, w = x ∨ w = x ++ [' ', ' '] := by
  induction ws with
  | nil => intro w hw; simp [withLastMarker] at hw
  | cons x t ih =>
    intro w hw
    cases t with
    | nil =>
      simp [withLastMarker] at hw
      exact ⟨x, by simp, Or.inr hw⟩
    | cons y u =>
      rw [show withLastMarker (x :: y :: u) = x :: withLastMarker (y :: u) from rfl] at hw
      rcases List.mem_cons.mp hw with h | h
      · exact ⟨x, by simp, Or.inl h⟩
      · obtain ⟨z, hz, hzw⟩ := ih w h
        exact ⟨z, List.mem_cons_of_mem x hz, hzw⟩

theorem mem_stripTrailingSpaces (l : Str) (c : Char) (h : c ∈ stripTrailingSpaces l) :
    c ∈ l := by
  unfold stripTrailingSpaces stripRight at h
  rw [List.mem_reverse] at h
  have := (List.dropWhile_sublist (l := l.reverse) (p := fun c => c = ' ')).subset h
  rwa [List.mem_reverse] at this

theorem stripTrailingSpaces_append_space (l : Str) :
    stripTrailingSpaces (l ++ [' ']) = stripTrailingSpaces l := by
  unfold stripTrailingSpaces stripRight
  simp [List.dropWhile]

/-- A word as fed to the packing loop: non-empty, and space-free apart
from a possible trailing hard-break marker. -/
def wordOk (w : Str) : Prop := w ≠ [] ∧ ∀ c ∈ stripTrailingSpaces w, c ≠ ' '

theorem adjWords_wordOk (s : Str) (b : Bool) : ∀ w ∈ adjWords s b, wordOk w := by
  intro w hw
  simp only [adjWords] at hw
  split at hw
  · obtain ⟨x, hx, hxw⟩ := withLastMarker_mem (wordsOf s) w hw
    obtain ⟨hne, hsp⟩ := wordsOf_mem s x hx
    rcases hxw with h | h
    · exact ⟨h ▸ hne, fun c hc => hsp c (mem_stripTrailingSpaces x c (h ▸ hc))⟩
    · subst h
      refine ⟨by simp, fun c hc => ?_⟩
      rw [show x ++ [' ', ' '] = (x ++ [' ']) ++ [' '] by simp,
        stripTrailingSpaces_append_space, stripTrailingSpaces_append_space] at hc
      exact hsp c (mem_stripTrailingSpaces x c hc)
  · obtain ⟨hne, hsp⟩ := wordsOf_mem s w hw
    exact ⟨hne, fun c hc => hsp c (mem_stripTrailingSpaces w c hc)⟩

/-- A fitted line is empty, fits in the width, or is a single (possibly
marker-carrying) word placed alone on its line. -/
def fitLineOk (width : Int) (l : Str) : Prop :=
  l = [] ∨ (l.length : Int) ≤ width ∨ ∀ c ∈ stripTrailingSpaces l, c ≠ ' '

theorem fitWords_ok (width : Int) (hwd : width ≠ -1) (ws : List Str) :
    ∀ (i : Nat) (res : List Str) (cur : Str),
      (i = 0 ↔ cur = []) → (∀ x ∈ res, fitLineOk width x) → fitLineOk width cur →
      (∀ x ∈ ws, wordOk x) →
      ∀ l ∈ fitWords width i ws res cur, fitLineOk width l := by
  induction ws with
  | nil =>
    intro i res cur _ hres hcur _ l hl
    rw [fitWords] at hl
    rcases List.mem_append.mp hl with h | h
    · exact hres l h
    · simp at h; exact h ▸ hcur
  | cons w t ih =>
    intro i res cur hiff hres hcur hws l hl
    rw [fitWords] at hl
    have hwok : wordOk w := hws w (List.mem_cons_self w t)
    split at hl
    case isTrue hcond =>
      refine ih (i + 1) (res ++ [cur]) w ⟨fun h => by omega, fun h => absurd h hwok.1⟩
        ?_ (Or.inr (Or.inr hwok.2)) (fun x hx => hws x (List.mem_cons_of_mem w hx)) l hl
      intro x hx
      rcases List.mem_append.mp hx with h | h
      · exact hres x h
      · simp at h; exact h ▸ hcur
    case isFalse hcond =>
      by_cases hi : i = 0
      · have hcur0 : cur = [] := hiff.mp hi
        subst hcur0
        rw [if_pos hi] at hl
        simp only [List.nil_append] at hl
        exact ih (i + 1) res w ⟨fun h => by omega, fun h => absurd h hwok.1⟩
          hres (Or.inr (Or.inr hwok.2))
          (fun x hx => hws x (List.mem_cons_of_mem w hx)) l hl
      · have hcur0 : cur ≠ [] := fun h => hi (hiff.mpr h)
        rw [if_neg hi] at hl
        have hbound : (cur.length : Int) + w.length + 1 ≤ width := by
          by_contra hgt
          apply hcond
          have h1 : cur.isEmpty = false := by
            cases cur with
            | nil => exact absurd rfl hcur0
            | cons a as => rfl
          simp only [h1, Bool.not_false, Bool.true_and, Bool.and_eq_true, decide_eq_true_eq]
          exact ⟨hwd, by omega⟩
        refine ih (i + 1) res (cur ++ [' '] ++ w)
          ⟨fun h => by omega, fun h => by simp at h⟩
          hres (Or.inr (Or.inl ?_))
          (fun x hx => hws x (List.mem_cons_of_mem w hx)) l hl
        have : (cur ++ [' '] ++ w).length = cur.length + 1 + w.length := by
          simp; omega
        rw [this]; push_cast; omega

theorem fitText_ok (s : Str) (width : Int) (b : Bool) (hwd : width ≠ -1) :
    ∀ l ∈ fitText s width b, fitLineOk width l := by
  intro l hl
  exact fitWords_ok width hwd (adjWords s b) 0 [] []
    ⟨fun _ => rfl, fun _ => rfl⟩ (by simp) (Or.inl rfl) (adjWords_wordOk s b) l hl

/-! ### Lemmas about the renderer's flatten path -/

theorem printFull_none (o : Output) (s : Str) (h : o.pending = none) :
    printFull o s = { lines := o.lines ++ [s], pending := none } := by
  unfold printFull
  rw [h]

theorem printFittedLines_lines (fi ind pf pr : Str) (i : Nat) (fitted : List Str) :
    ∀ (j : Nat) (o : Output), o.pending = none →
      (printFittedLines fi ind pf pr i j fitted o).pending = none ∧
      ∀ l ∈ (printFittedLines fi ind pf pr i j fitted o).lines,
        l ∈ o.lines ∨ ∃ fl ∈ fitted, ∃ pre,
          (pre = fi ++ pf ∨ pre = ind ++ pr) ∧ l = pre ++ fl := by
  induction fitted with
  | nil =>
    intro j o ho
    rw [printFittedLines]
    exact ⟨ho, fun l hl => Or.inl hl⟩
  | cons x xs ih =>
    intro j o ho
    rw [printFittedLines]
    have hpre : ∀ q : Str,
        (q = (if i = 0 && j = 0 then fi ++ pf else ind ++ pr)) →
        q = fi ++ pf ∨ q = ind ++ pr := by
      intro q hq
      split at hq
      · exact Or.inl hq
      · exact Or.inr hq
    rw [printFull_none o _ ho]
    obtain ⟨hp, hm⟩ := ih (j + 1) { lines := o.lines ++ [_], pending := none } rfl
    refine ⟨hp, fun l hl => ?_⟩
    rcases hm l hl with h | ⟨fl, hfl, pre, hpre', hlpre⟩
    · rcases List.mem_append.mp h with h' | h'
      · exact Or.inl h'
      · simp only [List.mem_singleton] at h'
        exact Or.inr ⟨x, List.mem_cons_self x xs, _, hpre _ rfl, h'⟩
    · exact Or.inr ⟨fl, List.mem_cons_of_mem x hfl, pre, hpre', hlpre⟩

theorem flattenSections_lines (relW : Int) (fi ind pf pr : Str) (n : Nat)
    (secs : List Str) :
    ∀ (i : Nat) (o : Output), o.pending = none →
      (flattenSections relW fi ind pf pr n i secs o).pending = none ∧
      ∀ l ∈ (flattenSections relW fi ind pf pr n i secs o).lines,
        l ∈ o.lines ∨ ∃ sec ∈ secs, ∃ (b : Bool), ∃ fl ∈ fitText sec relW b, ∃ pre,
          (pre = fi ++ pf ∨ pre = ind ++ pr) ∧ l = pre ++ fl := by
  induction secs with
  | nil =>
    intro i o ho
    rw [flattenSections]
    exact ⟨ho, fun l hl => Or.inl hl⟩
  | cons sec rest ih =>
    intro i o ho
    rw [flattenSections]
    obtain ⟨hp1, hm1⟩ := printFittedLines_lines fi ind pf pr i
      (fitText sec relW (decide (i + 1 < n))) 0 o ho
    obtain ⟨hp2, hm2⟩ := ih (i + 1) _ hp1
    refine ⟨hp2, fun l hl => ?_⟩
    rcases hm2 l hl with h | ⟨sec', hsec', b, fl, hfl, pre, hpre, hlpre⟩
    · rcases hm1 l h with h' | ⟨fl, hfl, pre, hpre, hlpre⟩
      · exact Or.inl h'
      · exact Or.inr ⟨sec, List.mem_cons_self sec rest, decide (i + 1 < n), fl, hfl,
          pre, hpre, hlpre⟩
    · exact Or.inr ⟨sec', List.mem_cons_of_mem sec hsec', b, fl, hfl, pre, hpre, hlpre⟩

theorem length_stripTrailingSpaces_le (l : Str) :
    (stripTrailingSpaces l).length ≤ l.length := by
  unfold stripTrailingSpaces stripRight
  rw [List.length_reverse]
  calc (l.reverse.dropWhile (fun c => c = ' ')).length
      ≤ l.reverse.length := (List.dropWhile_sublist _).length_le
    _ = l.length := List.length_reverse l

theorem renderGroup_flatten_bound
    (recurse : List Str → Str → Output → Output)
    (group : List Str) (width : Int) (indent pf pr : Str)
    (isFirstRender lineAfter : Bool)
    (hwd : width ≠ -1) (hpre : pf = [] ∨ pr = []) :
    ∀ l ∈ (renderGroupWith recurse group width indent isFirstRender pf pr lineAfter false
        { lines := [], pending := none }).lines,
      (l.length : Int) ≤
          max width ((indent.length + max pf.length pr.length + MIN_WIDTH : Nat) : Int)
        ∨ ∃ pre fl, l = pre ++ fl ∧
            pre.length ≤ indent.length + max pf.length pr.length ∧
            fl ≠ [] ∧ (∀ c ∈ stripTrailingSpaces fl, c ≠ ' ') ∧
            relativeWidth width indent pf pr < (fl.length : Int) := by
  intro l hl
  have hprec : (!pf.isEmpty && !pr.isEmpty) = false := by
    rcases hpre with h | h <;> subst h <;> simp
  have h10c : ((MIN_WIDTH : Nat) : Int) = 10 := by norm_num [MIN_WIDTH]
  have hrel10 : (10 : Int) ≤ relativeWidth width indent pf pr := by
    unfold relativeWidth
    rw [if_neg hwd, ← h10c]
    exact le_max_left _ _
  have hrelne : relativeWidth width indent pf pr ≠ -1 := by omega
  have hcast : ((indent.length + max pf.length pr.length + MIN_WIDTH : Nat) : Int) =
      (indent.length : Int) + ((max pf.length pr.length : Nat) : Int) + 10 := by
    push_cast [MIN_WIDTH]
    ring
  have hMrel : (indent.length : Int) + ((max pf.length pr.length : Nat) : Int) +
      relativeWidth width indent pf pr ≤
      max width ((indent.length + max pf.length pr.length + MIN_WIDTH : Nat) : Int) := by
    unfold relativeWidth
    rw [if_neg hwd, h10c, hcast]
    rcases le_total (10 : Int)
        (width - (indent.length : Int) - ((max pf.length pr.length : Nat) : Int)) with h | h
    · rw [max_eq_right h]
      have heq : (indent.length : Int) + ((max pf.length pr.length : Nat) : Int) +
          (width - (indent.length : Int) - ((max pf.length pr.length : Nat) : Int)) = width := by
        ring
      rw [heq]
      exact le_max_left _ _
    · rw [max_eq_left h]
      exact le_max_right _ _
  have hM10 : (indent.length : Int) + ((max pf.length pr.length : Nat) : Int) + 10 ≤
      max width ((indent.length + max pf.length pr.length + MIN_WIDTH : Nat) : Int) := by
    rw [hcast] at *
    exact le_max_right _ _
  -- reduce the renderer to the flatten path
  unfold renderGroupWith at hl
  simp only [Bool.false_eq_true, if_false, hprec] at hl
  set fi := (if isFirstRender = true then ([] : Str) else indent) with hfidef
  have hfile : fi.length ≤ indent.length := by
    rw [hfidef]; split <;> simp
  set secs := sectionsOf group with hsecs
  obtain ⟨hp, hm⟩ := flattenSections_lines (relativeWidth width indent pf pr)
    fi indent pf pr secs.length secs 0 { lines := [], pending := none } rfl
  -- a helper for lines of the form prefix ++ fitted
  have hmain : ∀ (sec : Str) (b : Bool) (fl pre : Str), fl ∈ fitText sec (relativeWidth width indent pf pr) b →
      (pre = fi ++ pf ∨ pre = indent ++ pr) →
      ((pre ++ fl).length : Int) ≤
          max width ((indent.length + max pf.length pr.length + MIN_WIDTH : Nat) : Int)
        ∨ ∃ pre' fl', pre ++ fl = pre' ++ fl' ∧
            pre'.length ≤ indent.length + max pf.length pr.length ∧
            fl' ≠ [] ∧ (∀ c ∈ stripTrailingSpaces fl', c ≠ ' ') ∧
            relativeWidth width indent pf pr < (fl'.length : Int) := by
    intro sec b fl pre hfl hprecase
    have hplen : pre.length ≤ indent.length + max pf.length pr.length := by
      rcases hprecase with h | h <;> subst h
      · rw [List.length_append]
        exact Nat.add_le_add hfile (le_max_left _ _)
      · rw [List.length_append]
        exact Nat.add_le_add (le_refl _) (le_max_right _ _)
    have hplen' : (pre.length : Int) ≤
        (indent.length : Int) + ((max pf.length pr.length : Nat) : Int) := by
      exact_mod_cast hplen
    rcases fitText_ok sec (relativeWidth width indent pf pr) b hrelne fl hfl with h | h | h
    · subst h
      left
      simp only [List.append_nil]
      omega
    · left
      rw [List.length_append]
      push_cast
      omega
    · by_cases hlen : (fl.length : Int) ≤ relativeWidth width indent pf pr
      · left
        rw [List.length_append]
        push_cast
        omega
      · right
        refine ⟨pre, fl, rfl, hplen, ?_, h, by omega⟩
        intro hnil
        rw [hnil] at hlen
        simp at hlen
        omega
  -- dispatch on line_after
  split at hl
  · rw [printFull_none _ _ hp] at hl
    simp only at hl
    rcases List.mem_append.mp hl with h | h
    · rcases hm l h with h' | ⟨sec, _, b, fl, hfl, pre, hpre', hlpre⟩
      · simp at h'
      · rw [hlpre]
        exact hmain sec b fl pre hfl hpre'
    · simp only [List.mem_singleton] at h
      subst h
      left
      have h1 : (stripTrailingSpaces indent).length ≤ indent.length :=
        length_stripTrailingSpaces_le indent
      have : ((stripTrailingSpaces indent).length : Int) ≤ (indent.length : Int) := by
        exact_mod_cast h1
      omega
  · rcases hm l hl with h' | ⟨sec, _, b, fl, hfl, pre, hpre', hlpre⟩
    · simp at h'
    · rw [hlpre]
      exact hmain sec b fl pre hfl hpre'

/-! ### Lemmas about hard-break sections and the exact two-space marker -/

theorem dropWhile_head_not (p : Char → Bool) (l : Str) (c : Char) (t : Str)
    (h : l.dropWhile p = c :: t) : p c = false := by
  induction l with
  | nil => simp [List.dropWhile] at h
  | cons a as ih =>
    rw [List.dropWhile_cons] at h
    split at h
    · exact ih h
    · rename_i hpa
      cases h
      simpa using hpa

theorem stripWs_has_nonspace (l : Str) (h : stripWs l ≠ []) :
    ∃ c ∈ stripWs l, c ≠ ' ' := by
  unfold stripWs stripBoth stripRight at *
  rcases hd : (l.dropWhile isWs).reverse.dropWhile isWs with _ | ⟨c, t⟩
  · rw [hd] at h; simp at h
  · have hc : isWs c = false := dropWhile_head_not isWs _ c t hd
    refine ⟨c, by simp, fun he => ?_⟩
    subst he
    simp [isWs] at hc

theorem endsTwoSpaces_append_marker (x : Str) :
    endsTwoSpaces (x ++ [' ', ' ']) = true := by
  unfold endsTwoSpaces
  simp

theorem not_endsTwoSpaces_nl : endsTwoSpaces ['\n'] = false := by decide

/-- One step of the section fold only appends to the accumulator. -/
theorem sectionAccNext_prefix (l : Str) (i n : Nat) (cur : Str) (acc : List Str) :
    ∃ t, sectionAccNext l i n cur acc = acc ++ t := by
  unfold sectionAccNext
  split
  · exact ⟨_, List.append_assoc acc _ _⟩
  · exact ⟨_, rfl⟩

/-- `sectionsAux` only ever appends to its accumulator. -/
theorem sectionsAux_acc_prefix (ls : List Str) :
    ∀ (i n : Nat) (cur : Str) (acc : List Str),
      ∃ t, sectionsAux ls i n cur acc = acc ++ t := by
  induction ls with
  | nil => intro i n cur acc; exact ⟨[], by rw [sectionsAux]; simp⟩
  | cons l ls ih =>
    intro i n cur acc
    rw [sectionsAux]
    obtain ⟨t1, ht1⟩ := sectionAccNext_prefix l i n cur acc
    obtain ⟨t2, ht2⟩ := ih (i + 1) n (sectionCurNext l i n cur) (sectionAccNext l i n cur acc)
    exact ⟨t1 ++ t2, by rw [ht2, ht1, List.append_assoc]⟩

/-- With the line counter consistent, a non-empty remainder always closes
at least one more section. -/
theorem sectionsAux_grows (ls : List Str) :
    ∀ (i n : Nat) (cur : Str) (acc : List Str), ls ≠ [] → n = i + ls.length →
      acc.length < (sectionsAux ls i n cur acc).length := by
  induction ls with
  | nil => intro i n cur acc h _; exact absurd rfl h
  | cons l ls ih =>
    intro i n cur acc _ hn
    rw [sectionsAux]
    cases ls with
    | nil =>
      have hmark : sectionBreakAt l i n = true := by
        have : i + 1 = n := by simp at hn; omega
        simp [sectionBreakAt, this]
      obtain ⟨t, ht⟩ := sectionsAux_acc_prefix [] (i + 1) n
        (sectionCurNext l i n cur) (sectionAccNext l i n cur acc)
      rw [ht]
      unfold sectionAccNext
      rw [if_pos hmark]
      simp
    | cons x xs =>
      have h1 := ih (i + 1) n (sectionCurNext l i n cur) (sectionAccNext l i n cur acc)
        (by simp) (by simp at hn ⊢; omega)
      refine lt_of_le_of_lt ?_ h1
      obtain ⟨t, ht⟩ := sectionAccNext_prefix l i n cur acc
      rw [ht]
      simp

/-- A line ending in two trailing spaces that is not the last line of the
group closes a section that is not the last one, carries the two-space
marker, and contains a non-space character. -/
theorem sectionsAux_marker (ls : List Str) :
    ∀ (i n : Nat) (cur : Str) (acc : List Str) (j : Nat) (lj : Str),
      n = i + ls.length → ls.get? j = some lj → j + 1 < ls.length →
      endsTwoSpaces lj = true → stripWs lj ≠ [] →
      ∃ (k : Nat) (sec : Str), (sectionsAux ls i n cur acc).get? k = some sec ∧
        k + 1 < (sectionsAux ls i n cur acc).length ∧
        endsTwoSpaces sec = true ∧ ∃ c ∈ sec, c ≠ ' ' := by
  induction ls with
  | nil => intro i n cur acc j lj _ hj _ _ _; simp at hj
  | cons l ls ih =>
    intro i n cur acc j lj hn hj hjlt hend hstrip
    rw [sectionsAux]
    cases j with
    | zero =>
      simp only [List.get?] at hj
      injection hj with hj
      subst hj
      have hbrk : sectionBreakAt l i n = true := by simp [sectionBreakAt, hend]
      have hnl : l ≠ ['\n'] := by
        intro h
        rw [h] at hend
        exact absurd hend (by decide)
      have haccN : sectionAccNext l i n cur acc =
          acc ++ [cur ++ (if i = 0 then [] else [' ']) ++ stripWs l ++ [' ', ' ']] := by
        unfold sectionAccNext
        rw [if_pos hbrk, hend]
        simp [hnl]
      obtain ⟨t, ht⟩ := sectionsAux_acc_prefix ls (i + 1) n
        (sectionCurNext l i n cur) (sectionAccNext l i n cur acc)
      have hlsne : ls ≠ [] := by
        simp at hjlt
        intro h
        rw [h] at hjlt
        simp at hjlt
      have hgrow := sectionsAux_grows ls (i + 1) n
        (sectionCurNext l i n cur) (sectionAccNext l i n cur acc) hlsne
        (by simp at hn ⊢; omega)
      refine ⟨acc.length, cur ++ (if i = 0 then [] else [' ']) ++ stripWs l ++ [' ', ' '],
        ?_, ?_, ?_, ?_⟩
      · rw [ht, haccN, List.append_assoc]
        rw [List.get?_append_right (le_refl acc.length)]
        simp
      · have h2 : (sectionAccNext l i n cur acc).length = acc.length + 1 := by
          rw [haccN]; simp
        omega
      · exact endsTwoSpaces_append_marker _
      · obtain ⟨c, hc, hcs⟩ := stripWs_has_nonspace l hstrip
        exact ⟨c, by simp [List.mem_append, hc], hcs⟩
    | succ j' =>
      refine ih (i + 1) n (sectionCurNext l i n cur) (sectionAccNext l i n cur acc)
        j' lj (by simp at hn ⊢; omega) (by simpa using hj)
        (by simp at hjlt ⊢; omega) hend hstrip

/-- The last line the packing loop produces ends with the last word. -/
theorem fitWords_getLast_concat (width : Int) (ws : List Str) (wl : Str) :
    ∀ (i : Nat) (res : List Str) (cur : Str),
      ∃ x, (fitWords width i (ws ++ [wl]) res cur).getLast? = some (x ++ wl) := by
  induction ws with
  | nil =>
    intro i res cur
    rw [List.nil_append, fitWords]
    split
    · rw [fitWords]
      exact ⟨[], by simp⟩
    · rw [fitWords]
      exact ⟨cur ++ (if i = 0 then [] else [' ']), by simp⟩
  | cons w t ih =>
    intro i res cur
    rw [List.cons_append, fitWords]
    split
    · exact ih (i + 1) (res ++ [cur]) w
    · exact ih (i + 1) res (cur ++ (if i = 0 then [] else [' ']) ++ w)

/-- `withLastMarker` decomposed: the last word gets the marker, the rest
is unchanged. -/
theorem withLastMarker_eq (ws : List Str) (h : ws ≠ []) :
    ∃ ws1 wl, ws = ws1 ++ [wl] ∧ withLastMarker ws = ws1 ++ [wl ++ [' ', ' ']] := by
  induction ws with
  | nil => exact absurd rfl h
  | cons w t ih =>
    cases t with
    | nil => exact ⟨[], w, rfl, rfl⟩
    | cons x u =>
      obtain ⟨ws1, wl, h1, h2⟩ := ih (by simp)
      refine ⟨w :: ws1, wl, by rw [List.cons_append, ← h1], ?_⟩
      rw [show withLastMarker (w :: x :: u) = w :: withLastMarker (x :: u) from rfl,
        h2, List.cons_append]

theorem trailingSpaceCount_marker (x wl : Str) (h1 : wl ≠ [])
    (h2 : ∀ c ∈ wl, c ≠ ' ') :
    trailingSpaceCount (x ++ (wl ++ [' ', ' '])) = 2 := by
  obtain ⟨c, t, hct⟩ : ∃ c t, wl.reverse = c :: t := by
    cases hr : wl.reverse with
    | nil =>
      have : wl = [] := by
        have := congrArg List.reverse hr
        simpa using this
      exact absurd this h1
    | cons c t => exact ⟨c, t, rfl⟩
  have hc : c ∈ wl := by
    rw [← List.mem_reverse, hct]
    simp
  unfold trailingSpaceCount
  rw [List.reverse_append, List.reverse_append, hct]
  have hcne : ¬ c = ' ' := h2 c hc
  simp [List.takeWhile_cons, hcne]

/-- Fitting a section with `with_break` set ends its last output line with
exactly the two-space hard-break marker. -/
theorem fitText_break_last (sec : Str) (width : Int) (h : wordsOf sec ≠ []) :
    ∃ fl, (fitText sec width true).getLast? = some fl ∧ trailingSpaceCount fl = 2 := by
  obtain ⟨ws1, wl, hws, hmark⟩ := withLastMarker_eq (wordsOf sec) h
  have hadj : adjWords sec true = ws1 ++ [wl ++ [' ', ' ']] := by
    unfold adjWords
    have hne : (wordsOf sec).isEmpty = false := by
      cases hw : wordsOf sec with
      | nil => exact absurd hw h
      | cons a b => rfl
    simp only [hne, Bool.not_false, Bool.and_true, if_pos rfl]
    exact hmark
  unfold fitText
  rw [hadj]
  obtain ⟨x, hx⟩ := fitWords_getLast_concat width ws1 (wl ++ [' ', ' ']) 0 [] []
  refine ⟨x ++ (wl ++ [' ', ' ']), hx, ?_⟩
  have hwlmem : wl ∈ wordsOf sec := by rw [hws]; simp
  obtain ⟨hne, hsp⟩ := wordsOf_mem sec wl hwlmem
  exact trailingSpaceCount_marker x wl hne hsp

theorem classifyStep_forcedBreak (s : GState) (l : Str) :
    (classifyStep s l).forcedBreak = s.forcedBreak := by
  unfold classifyStep
  split
  · rfl
  · rcases hul : ulParse l with _ | ⟨b, r0⟩ <;>
    rcases hol : olParse l with _ | r1 <;>
    rcases hbq : bqParse l with _ | r2 <;>
    dsimp only <;>
    first
      | rfl
      | (split <;> rfl)

theorem olBump_forcedBreak (s : GState) : (olBump s).forcedBreak = s.forcedBreak := by
  unfold olBump; split <;> rfl

theorem bqApply_forcedBreak (s : GState) (rest : Str) :
    (bqApply s rest).forcedBreak = s.forcedBreak := by
  unfold bqApply; split <;> split <;> rfl

theorem appendClassify_forcedBreak (s : GState) (l : Str) (wc : Bool) :
    (appendClassify s l wc).forcedBreak = s.forcedBreak := by
  unfold appendClassify
  split
  · rw [classifyStep_forcedBreak]
  · rfl

theorem contTry_forcedBreak (r : List Str → Str → Output → Output) (w : Int) (ind : Str)
    (s : GState) (l : Str) (h : s.forcedBreak = false) :
    (contTry r w ind s l).1.forcedBreak = false := by
  unfold contTry
  split
  · split <;> simp [doRenderGroupWith, h]
  · split
    · rcases hul : ulParse l with _ | ⟨b, r0⟩
      · rcases hol : olParse l with _ | r1
        · dsimp only
          split <;> simp [h]
        · dsimp only
          simp [olBump_forcedBreak, doRenderGroupWith]
      · dsimp only
        simp [olBump_forcedBreak, doRenderGroupWith]
    · split
      · rcases hbq : bqParse l with _ | r2
        · dsimp only; simp [h]
        · dsimp only; simp [bqApply_forcedBreak, h]
      · simp [h]

theorem contFinish_forcedBreak (r : List Str → Str → Output → Output) (w : Int) (ind : Str)
    (p : GState × Str × Bool) (h : p.1.forcedBreak = false) :
    (contFinish r w ind p).forcedBreak = false := by
  unfold contFinish
  split
  · rw [appendClassify_forcedBreak]; rfl
  · rw [appendClassify_forcedBreak]; exact h

theorem contentStep_forcedBreak (r : List Str → Str → Output → Output)
    (w : Int) (ind : Str) (s : GState) (l : Str) :
    (contentStep r w ind s l).forcedBreak = false := by
  unfold contentStep
  exact contFinish_forcedBreak r w ind _ (contTry_forcedBreak r w ind _ l rfl)
theorem isEmpty_false_of_ne_nil (l : Str) (h : l ≠ []) : l.isEmpty = false := by
  cases l with
  | nil => exact absurd rfl h
  | cons a b => rfl

theorem stripWs_cons_ne_nil (c : Char) (t : Str) (hc : isWs c = false) :
    stripWs (c :: t) ≠ [] := by
  unfold stripWs stripBoth stripRight
  rw [List.dropWhile_cons_of_neg (by simp [hc])]
  intro h
  rw [List.reverse_eq_nil_iff, List.dropWhile_eq_nil_iff] at h
  exact absurd (h c (by simp)) (by simp [hc])

theorem setextMatch_cons_ne (c : Char) (t : Str) (h1 : ¬ c = '=') (h2 : ¬ c = '-') :
    setextMatch (c :: t) = none := by
  unfold setextMatch
  simp [h1, h2]

theorem atxHashes_cons_ne (c : Char) (t : Str) (h : ¬ c = '#') :
    atxHashes (c :: t) = none := by
  unfold atxHashes
  simp [h]

theorem bqParse_eq_some (l rest : Str) (h : bqParse l = some rest) :
    ∃ t, l = '>' :: t ∧ rest = t.dropWhile isWs := by
  cases l with
  | nil => simp [bqParse] at h
  | cons c u =>
    have h' : (if c = '>' then some (u.dropWhile isWs) else none) = some rest := h
    by_cases hc : c = '>'
    · rw [if_pos hc] at h'
      refine ⟨u, by rw [hc], ?_⟩
      injection h' with h2
      exact h2.symm
    · rw [if_neg hc] at h'
      simp at h'

/-- `stepWith` on a non-blank, non-Setext-taken, non-ATX line is the
content step. -/
theorem stepWith_content (recurse : List Str → Str → Output → Output)
    (width : Int) (indent : Str) (s : GState) (rawLine : Str)
    (h1 : stripWs (normalizeLine rawLine) ≠ [])
    (h2 : s.hasBreak = true ∨ setextMatch (normalizeLine rawLine) = none)
    (h3 : atxHashes (normalizeLine rawLine) = none) :
    stepWith recurse width indent s rawLine =
      contentStep recurse width indent s (normalizeLine rawLine) := by
  unfold stepWith
  rw [if_neg (by simp [isEmpty_false_of_ne_nil _ h1])]
  have hmt : (if s.hasBreak then none else setextMatch (normalizeLine rawLine)) = none := by
    rcases h2 with h | h
    · rw [h]; rfl
    · cases s.hasBreak <;> simp [h]
  rw [hmt, h3]

theorem blockquote_continuation_step (recurse : List Str → Str → Output → Output)
    (width : Int) (indent : Str) (s : GState) (rawLine rest : Str)
    (hst : s.state.type = some TYPE_BLOCK)
    (hbq : bqParse (normalizeLine rawLine) = some rest) :
    stepWith recurse width indent s rawLine =
      { s with forcedBreak := false,
               group := s.group ++ (if s.hasBreak then [['\n']] else []) ++ [rest],
               hasBreak := rest.isEmpty } := by
  obtain ⟨t, hn, hrest⟩ := bqParse_eq_some _ _ hbq
  have hbq2 : bqParse ('>' :: t) = some rest := by rw [← hn]; exact hbq
  rw [stepWith_content recurse width indent s rawLine
    (by rw [hn]; exact stripWs_cons_ne_nil '>' t (by decide))
    (by rw [hn]; exact Or.inr (setextMatch_cons_ne _ _ (by decide) (by decide)))
    (by rw [hn]; exact atxHashes_cons_ne _ _ (by decide))]
  rw [hn]
  obtain ⟨g, hb, fb, fr, ps, st, out, fl⟩ := s
  simp only at hst
  cases hb <;> cases hre : rest.isEmpty <;>
    simp [contentStep, contFinish, contTry, appendClassify, bqApply, hst, hre, hbq2,
      TYPE_BLOCK, TYPE_CODE, TYPE_UL, TYPE_OL]

theorem classifyStep_hr (s : GState) (l : Str) (h : hrMatch l = true) :
    (classifyStep s l).state.type = some TYPE_HR ∧ (classifyStep s l).hasBreak = true := by
  unfold classifyStep
  rw [if_pos h]
  exact ⟨rfl, rfl⟩

theorem contFinish_classifies (recurse : List Str → Str → Output → Output)
    (width : Int) (indent : Str) (p : GState × Str × Bool)
    (hp : p.2.2 = false) (hg : p.1.group = [] ∨ p.1.hasBreak = true)
    (hhr : hrMatch p.2.1 = true) :
    (contFinish recurse width indent p).state.type = some TYPE_HR ∧
    (contFinish recurse width indent p).hasBreak = true := by
  unfold contFinish
  rcases hgc : p.1.group with _ | ⟨g0, gs⟩
  · rw [if_neg (by simp [hgc])]
    unfold appendClassify
    rw [hp]
    have hlen : ({ p.1 with group := p.1.group ++ [p.2.1] } : GState).group.length = 1 := by
      simp [hgc]
    rw [if_pos (by simp [hlen])]
    exact classifyStep_hr _ _ hhr
  · have hhb : p.1.hasBreak = true := by
      rcases hg with h | h
      · rw [hgc] at h; simp at h
      · exact h
    rw [if_pos (by simp [hp, hhb, hgc])]
    unfold appendClassify
    rw [hp]
    have hlen : ({ doRenderGroupWith recurse width indent true p.1 with
        group := (doRenderGroupWith recurse width indent true p.1).group ++ [p.2.1] } : GState).group.length = 1 := by
      simp [doRenderGroupWith]
    rw [if_pos (by simp [hlen])]
    exact classifyStep_hr _ _ hhr
theorem hrMatch_shape (l : Str) (h : hrMatch l = true) :
    ∃ c t, l = c :: t ∧ (c = '*' ∨ c = '-' ∨ c = '_') := by
  cases l with
  | nil => simp [hrMatch, hrAux] at h
  | cons c t =>
    refine ⟨c, t, rfl, ?_⟩
    unfold hrMatch hrAux at h
    by_cases hc : c = '*' ∨ c = '-' ∨ c = '_'
    · rcases hc with h1 | h1 | h1 <;> simp [h1]
    · push_neg at hc
      rw [if_neg (by simp [hc.1, hc.2.1, hc.2.2])] at h
      rw [if_neg (by simp)] at h
      simp at h

theorem takeWhile_space_cons_ne (c : Char) (t : Str) (hc : ¬ c = ' ') :
    (c :: t).takeWhile (fun d => d = ' ') = [] := by
  simp [List.takeWhile_cons, hc]

theorem codeMatch_rule_char (c : Char) (t : Str) (hc : ¬ c = ' ') :
    codeMatch (c :: t) = false := by
  unfold codeMatch
  rw [takeWhile_space_cons_ne c t hc]
  simp

theorem indentedMatch_rule_char (c : Char) (t : Str) (hc : ¬ c = ' ') :
    indentedMatch (c :: t) = false := by
  unfold indentedMatch
  rw [takeWhile_space_cons_ne c t hc]
  simp

theorem bqParse_cons_ne (c : Char) (t : Str) (hc : ¬ c = '>') :
    bqParse (c :: t) = none := by
  unfold bqParse
  simp [hc]

theorem contTry_no_continuation (recurse : List Str → Str → Output → Output)
    (width : Int) (indent : Str) (s : GState) (l : Str)
    (h1 : ¬ s.state.type = some TYPE_CODE)
    (h2 : (s.state.type = some TYPE_UL ∨ s.state.type = some TYPE_OL) →
      (ulParse l = none ∧ olParse l = none))
    (h3 : indentedMatch l = false)
    (h4 : bqParse l = none) :
    contTry recurse width indent s l = (s, l, false) := by
  unfold contTry
  rw [if_neg h1]
  by_cases h5 : s.state.type = some TYPE_UL ∨ s.state.type = some TYPE_OL
  · rw [if_pos h5]
    obtain ⟨hul, hol⟩ := h2 h5
    rw [hul, hol]
    dsimp only
    rw [h3]
    simp
  · rw [if_neg h5]
    by_cases h6 : s.state.type = some TYPE_BLOCK
    · rw [if_pos h6, h4]
    · rw [if_neg h6]

theorem hr_line_step (recurse : List Str → Str → Output → Output)
    (width : Int) (indent : Str) (s : GState) (rawLine : Str)
    (hhr : hrMatch (normalizeLine rawLine) = true)
    (hset : s.hasBreak = true ∨ setextMatch (normalizeLine rawLine) = none)
    (hcont : (s.state.type = some TYPE_UL ∨ s.state.type = some TYPE_OL) →
      (ulParse (normalizeLine rawLine) = none ∧ olParse (normalizeLine rawLine) = none))
    (hnew : s.group = [] ∨ s.hasBreak = true ∨ s.state.type = some TYPE_CODE) :
    (stepWith recurse width indent s rawLine).state.type = some TYPE_HR ∧
    (stepWith recurse width indent s rawLine).hasBreak = true := by
  obtain ⟨c, t, hn, hc⟩ := hrMatch_shape _ hhr
  have hcsp : ¬ c = ' ' := by rcases hc with h | h | h <;> subst h <;> decide
  have hcw : isWs c = false := by rcases hc with h | h | h <;> subst h <;> decide
  have hch : ¬ c = '#' := by rcases hc with h | h | h <;> subst h <;> decide
  have hcgt : ¬ c = '>' := by rcases hc with h | h | h <;> subst h <;> decide
  rw [stepWith_content recurse width indent s rawLine
    (by rw [hn]; exact stripWs_cons_ne_nil c t hcw) hset
    (by rw [hn]; exact atxHashes_cons_ne c t hch)]
  rw [hn] at hcont hhr ⊢
  unfold contentStep
  by_cases hcode : s.state.type = some TYPE_CODE
  · have hcm : codeMatch (c :: t) = false := codeMatch_rule_char c t hcsp
    have hct : contTry recurse width indent { s with forcedBreak := false } (c :: t) =
        (doRenderGroupWith recurse width indent true { s with forcedBreak := false },
          c :: t, false) := by
      unfold contTry
      rw [if_pos (by simpa using hcode)]
      rw [hcm]
      simp
    rw [hct]
    exact contFinish_classifies recurse width indent _ rfl
      (Or.inl (by simp [doRenderGroupWith])) hhr
  · have hct : contTry recurse width indent { s with forcedBreak := false } (c :: t) =
        ({ s with forcedBreak := false }, c :: t, false) :=
      contTry_no_continuation recurse width indent _ _ (by simpa using hcode)
        (by intro h; exact hcont (by simpa using h))
        (indentedMatch_rule_char c t hcsp) (bqParse_cons_ne c t hcgt)
    rw [hct]
    refine contFinish_classifies recurse width indent _ rfl ?_ hhr
    rcases hnew with h | h | h
    · exact Or.inl (by simpa using h)
    · exact Or.inr (by simpa using h)
    · exact absurd h hcode
theorem takeWhile_spaces_replicate (n : Nat) (c : Char) (r : Str) (hc : ¬ c = ' ') :
    (List.replicate n ' ' ++ c :: r).takeWhile (fun d => d = ' ') = List.replicate n ' ' := by
  induction n with
  | zero => simp [List.takeWhile_cons, hc]
  | succ k ih => simp [List.replicate_succ, List.takeWhile_cons, ih]

theorem drop_replicate_append (n : Nat) (x : Str) :
    (List.replicate n ' ' ++ x).drop n = x := by
  have := List.drop_left (List.replicate n ' ') x
  simpa using this

theorem takeWhile_all_append (p : Char → Bool) (d : Str) (c : Char) (r : Str)
    (hd : ∀ x ∈ d, p x = true) (hc : p c = false) :
    (d ++ c :: r).takeWhile p = d := by
  induction d with
  | nil => simp [List.takeWhile_cons, hc]
  | cons a t ih =>
    rw [List.cons_append, List.takeWhile_cons, hd a (by simp)]
    rw [ih (fun x hx => hd x (by simp [hx]))]
    simp

theorem bqParse_indented (n : Nat) (r : Str) (hn : 1 ≤ n) :
    bqParse (List.replicate n ' ' ++ '>' :: r) = none := by
  cases n with
  | zero => omega
  | succ m =>
    rw [List.replicate_succ, List.cons_append]
    exact bqParse_cons_ne _ _ (by decide)

theorem hrMatch_indented (n : Nat) (c : Char) (r : Str) (hn : 1 ≤ n) :
    hrMatch (List.replicate n ' ' ++ c :: r) = false := by
  cases n with
  | zero => omega
  | succ m =>
    rw [List.replicate_succ, List.cons_append]
    unfold hrMatch hrAux
    rw [if_neg (by decide)]
    rw [if_neg (by decide)]

theorem ulParse_indented_gt (n : Nat) (r : Str) (hn3 : n ≤ 3) :
    ulParse (List.replicate n ' ' ++ '>' :: r) = none := by
  unfold ulParse
  rw [takeWhile_spaces_replicate n '>' r (by decide)]
  rw [List.length_replicate, if_pos hn3, drop_replicate_append]
  simp

theorem olParse_indented_gt (n : Nat) (r : Str) (hn3 : n ≤ 3) :
    olParse (List.replicate n ' ' ++ '>' :: r) = none := by
  unfold olParse
  rw [takeWhile_spaces_replicate n '>' r (by decide)]
  rw [List.length_replicate, if_pos hn3, drop_replicate_append]
  simp

theorem codeMatch_indented_gt (n : Nat) (c : Char) (r : Str) (hc : ¬ c = ' ') (hn3 : n ≤ 3) :
    codeMatch (List.replicate n ' ' ++ c :: r) = false := by
  unfold codeMatch
  rw [takeWhile_spaces_replicate n c r hc]
  rw [List.length_replicate]
  simp
  omega

theorem classify_indented_bq_plain (s : GState) (n : Nat) (r : Str)
    (hn : 1 ≤ n) (hn3 : n ≤ 3) :
    (classifyStep s (List.replicate n ' ' ++ '>' :: r)).state.type = none := by
  unfold classifyStep
  rw [if_neg (by simp [hrMatch_indented n '>' r hn])]
  rw [ulParse_indented_gt n r hn3, olParse_indented_gt n r hn3,
    bqParse_indented n r hn]
  dsimp only
  rw [if_neg (by simp [codeMatch_indented_gt n '>' r (by decide) hn3])]

theorem ulParse_recognized (n : Nat) (b : Char) (r : Str)
    (hn3 : n ≤ 3) (hb : b = '*' ∨ b = '+' ∨ b = '-') :
    ulParse (List.replicate n ' ' ++ b :: ' ' :: r) = some (b, r.dropWhile isWs) := by
  have hbs : ¬ b = ' ' := by rcases hb with h | h | h <;> subst h <;> decide
  unfold ulParse
  rw [takeWhile_spaces_replicate n b (' ' :: r) hbs]
  rw [List.length_replicate, if_pos hn3, drop_replicate_append]
  dsimp only
  rw [if_pos (by rcases hb with h | h | h <;> simp [h])]
  rw [if_pos (by decide)]
  have : (' ' :: r).dropWhile isWs = r.dropWhile isWs := by
    rw [List.dropWhile_cons_of_pos (by decide)]
  rw [this]

theorem olParse_recognized (n : Nat) (d : Str) (r : Str)
    (hn3 : n ≤ 3) (hd : d ≠ []) (hdig : ∀ x ∈ d, x.isDigit = true) :
    olParse (List.replicate n ' ' ++ (d ++ '.' :: ' ' :: r)) = some (r.dropWhile isWs) := by
  obtain ⟨d0, dt, hd0⟩ : ∃ d0 dt, d = d0 :: dt := by
    cases d with
    | nil => exact absurd rfl hd
    | cons a t => exact ⟨a, t, rfl⟩
  have h0d : (d0.isDigit) = true := hdig d0 (by rw [hd0]; simp)
  have h0s : ¬ d0 = ' ' := by
    intro h
    rw [h] at h0d
    simp [Char.isDigit] at h0d
  unfold olParse
  dsimp only
  rw [hd0, List.cons_append]
  rw [takeWhile_spaces_replicate n d0 (dt ++ '.' :: ' ' :: r) h0s]
  rw [List.length_replicate, if_pos hn3]
  rw [show List.replicate n ' ' ++ d0 :: (dt ++ '.' :: ' ' :: r) =
    List.replicate n ' ' ++ (d0 :: (dt ++ '.' :: ' ' :: r)) from rfl]
  rw [drop_replicate_append]
  rw [show d0 :: (dt ++ '.' :: ' ' :: r) = (d0 :: dt) ++ '.' :: ' ' :: r from rfl]
  rw [takeWhile_all_append Char.isDigit (d0 :: dt) '.' (' ' :: r)
    (fun x hx => hdig x (by rw [hd0]; exact hx)) (by decide)]
  rw [if_neg (by simp)]
  rw [List.drop_left]
  dsimp only
  rw [if_pos rfl, if_pos (by decide)]
  rw [List.dropWhile_cons_of_pos (by decide)]
theorem fitWords_neg_one (ws : List Str) :
    ∀ (i : Nat) (res : List Str) (cur : Str), 1 ≤ i →
      fitWords (-1) i ws res cur = res ++ [cur ++ joinTail ws] := by
  induction ws with
  | nil => intro i res cur _; rw [fitWords]; simp [joinTail]
  | cons w t ih =>
    intro i res cur hi
    rw [fitWords]
    split
    case isTrue h => simp at h
    case isFalse h =>
      rw [if_neg (by omega)]
      rw [ih (i + 1) res (cur ++ [' '] ++ w) (by omega)]
      simp [joinTail]

theorem fitText_neg_one (s : Str) (b : Bool) :
    fitText s (-1) b = [joinSp (adjWords s b)] := by
  unfold fitText
  cases h : adjWords s b with
  | nil => rw [fitWords]; simp [joinSp]
  | cons w t =>
    rw [fitWords]
    rw [if_neg (by simp)]
    show fitWords (-1) 1 t [] w = [joinSp (w :: t)]
    rw [fitWords_neg_one t 1 [] w (by omega)]
    rw [joinSp_cons]
    simp

theorem fitWords_greedy_step (width : Int) (i : Nat) (res : List Str)
    (cur w : Str) (ws : List Str) (hw : width ≠ -1) (hcur : cur ≠ []) :
    fitWords width i (w :: ws) res cur =
      if (cur.length : Int) + w.length + 1 ≤ width then
        fitWords width (i + 1) ws res (cur ++ (if i = 0 then [] else [' ']) ++ w)
      else fitWords width (i + 1) ws (res ++ [cur]) w := by
  have hc : cur.isEmpty = false := by
    cases cur with
    | nil => exact absurd rfl hcur
    | cons a b => rfl
  rw [fitWords]
  by_cases hle : (cur.length : Int) + w.length + 1 ≤ width
  · rw [if_pos hle]
    rw [if_neg (by simp [hc, hw]; omega)]
  · rw [if_neg hle]
    rw [if_pos (by simp [hc, hw]; omega)]

theorem padLoop_length (k : Nat) (s : Str) (h : 4 ≤ k + s.length) :
    4 ≤ (padLoop k s).length := by
  induction k generalizing s with
  | zero => rw [padLoop]; omega
  | succ m ih =>
    rw [padLoop]
    split
    · exact ih (s ++ [' ']) (by simp; omega)
    · omega

theorem olPrefixOf_length (n : Nat) : 4 ≤ (olPrefixOf n).length := by
  unfold olPrefixOf
  exact padLoop_length 4 _ (by omega)

theorem contTry_indented_bq (recurse : List Str → Str → Output → Output)
    (width : Int) (indent : Str) (s : GState) (l : Str) (n : Nat) (r : Str)
    (hn : 1 ≤ n) (hl : l = List.replicate n ' ' ++ '>' :: r)
    (hst : s.state.type = some TYPE_BLOCK) :
    contTry recurse width indent s l = (s, l, false) := by
  unfold contTry
  rw [if_neg (by rw [hst]; simp [TYPE_BLOCK, TYPE_CODE])]
  rw [if_neg (by rw [hst]; simp [TYPE_BLOCK, TYPE_UL, TYPE_OL])]
  rw [if_pos hst, hl, bqParse_indented n r hn]

/-! ### Claim theorems -/

/-- **C1** (counterexample): with width 10, the blockquote document
`"> aaa bbb cc"` prints the 12-character line `"> aaa bbb cc"`.  The line
is not verbatim code, and it carries three words each of length at most
the width, so neither stated exception applies — the claimed invariant
`len(line) ≤ width` fails because the `MIN_WIDTH` floor overrides the
shrunken width budget. -/
theorem c1_cex :
    readmdFuel 20 [str "> aaa bbb cc"] 10 = [str "> aaa bbb cc"] ∧
    (10 : Int) < ((str "> aaa bbb cc").length : Int) ∧
    (wordsOf (str "> aaa bbb cc")).length = 4 ∧
    ∀ w ∈ wordsOf (str "> aaa bbb cc"), (w.length : Int) ≤ 10 :=
  ⟨by decide, by decide, by decide, by decide⟩

/-- **C1** (amended): every line printed by the renderer's
flatten-and-wrap path at `width ≠ -1` satisfies
`len(line) ≤ max(width, len(indent) + max(prefixes) + MIN_WIDTH)` — the
`MIN_WIDTH = 10` floor lets deeply prefixed content exceed the width —
except a line whose fitted part is a single word longer than the relative
width; verbatim code lines are printed as-is; and the Fitter never splits
a word (joining its output with single spaces reproduces the packed word
sequence). -/
theorem c1_width_invariant :
    (∀ (recurse : List Str → Str → Output → Output) (group : List Str) (width : Int)
       (indent pf pr : Str) (isFirstRender lineAfter : Bool),
      width ≠ -1 → (pf = [] ∨ pr = []) →
      ∀ l ∈ (renderGroupWith recurse group width indent isFirstRender pf pr lineAfter false
          { lines := [], pending := none }).lines,
        (l.length : Int) ≤
            max width ((indent.length + max pf.length pr.length + MIN_WIDTH : Nat) : Int)
          ∨ ∃ pre fl, l = pre ++ fl ∧
              pre.length ≤ indent.length + max pf.length pr.length ∧
              fl ≠ [] ∧ (∀ c ∈ stripTrailingSpaces fl, c ≠ ' ') ∧
              relativeWidth width indent pf pr < (fl.length : Int))
    ∧ (∀ (s : Str) (width : Int) (b : Bool),
        joinSp (fitText s width b) = joinSp (adjWords s b)) :=
  ⟨renderGroup_flatten_bound, fitText_join⟩

/-- Witness for C1 at a concrete render: hypotheses `80 ≠ -1` and the
empty-prefix condition are discharged on a plain paragraph whose single
printed line is `"hello world"`. -/
theorem c1_witness :
    (80 : Int) ≠ -1 ∧
    (((str "hello world").length : Int) ≤
        max 80 ((([] : Str).length + max ([] : Str).length ([] : Str).length + MIN_WIDTH : Nat) : Int)
      ∨ ∃ pre fl, str "hello world" = pre ++ fl ∧
          pre.length ≤ ([] : Str).length + max ([] : Str).length ([] : Str).length ∧
          fl ≠ [] ∧ (∀ c ∈ stripTrailingSpaces fl, c ≠ ' ') ∧
          relativeWidth 80 [] [] [] < (fl.length : Int)) :=
  ⟨by decide,
   c1_width_invariant.1 (fun _ _ o => o) [str "hello world"] 80 [] [] [] true false
     (by decide) (Or.inl rfl) (str "hello world") (by decide)⟩

/-- **C2** (counterexample): at width `-1` the Fitter does not return the
entire input as a single line: on `"a  b"` (two interior spaces) it
returns `["a b"]`, collapsing the space run. -/
theorem c2_cex :
    fitText (str "a  b") (-1) false = [str "a b"] ∧ ¬ (str "a b") = (str "a  b") :=
  ⟨by decide, by decide⟩

/-- **C2** (amended): a word is appended to the current non-empty line
exactly when `len(cur) + len(word) + 1 ≤ width` and otherwise starts a
new line; and at width `-1` the Fitter returns a single line holding the
input's (marker-adjusted) words joined by single spaces — so no line
break is ever inserted inside a paragraph. -/
theorem c2_greedy_fit :
    (∀ (width : Int) (i : Nat) (res : List Str) (cur w : Str) (ws : List Str),
       width ≠ -1 → cur ≠ [] →
       fitWords width i (w :: ws) res cur =
         if (cur.length : Int) + w.length + 1 ≤ width then
           fitWords width (i + 1) ws res (cur ++ (if i = 0 then [] else [' ']) ++ w)
         else fitWords width (i + 1) ws (res ++ [cur]) w)
    ∧ (∀ (s : Str) (b : Bool), fitText s (-1) b = [joinSp (adjWords s b)]) :=
  ⟨fun width i res cur w ws hw hc => fitWords_greedy_step width i res cur w ws hw hc,
   fitText_neg_one⟩

/-- Witness for C2: the greedy step at a concrete non-empty current line. -/
theorem c2_witness :
    fitWords 10 1 [str "bb"] [] (str "aaa") =
      if ((str "aaa").length : Int) + (str "bb").length + 1 ≤ 10 then
        fitWords 10 (1 + 1) [] [] (str "aaa" ++ (if 1 = 0 then [] else [' ']) ++ str "bb")
      else fitWords 10 (1 + 1) [] ([] ++ [str "aaa"]) (str "bb") :=
  c2_greedy_fit.1 10 1 [] (str "aaa") (str "bb") [] (by decide) (by decide)

/-- **C3** (confirmed): joining the lines returned by `_fit_text` with
single spaces reproduces the input's word sequence joined by single
spaces, with the two-space hard-break marker appended at the end exactly
when `with_break` is set and the section has words: no word is
subdivided, reordered, duplicated, or dropped, even one longer than the
width. -/
theorem c3_join_identity (s : Str) (width : Int) (b : Bool) :
    joinSp (fitText s width b) =
      joinSp (wordsOf s) ++ (if b && !(wordsOf s).isEmpty then [' ', ' '] else []) := by
  rw [fitText_join]
  rw [show adjWords s b =
    (if (b && !(wordsOf s).isEmpty) = true then withLastMarker (wordsOf s)
     else wordsOf s) from rfl]
  by_cases h : (b && !(wordsOf s).isEmpty) = true
  · rw [if_pos h, if_pos h]
    have hne : wordsOf s ≠ [] := by
      intro hnil
      rw [hnil] at h
      simp at h
    exact joinSp_withLastMarker _ hne
  · rw [if_neg h, if_neg h]
    simp

/-- **C4** (counterexample): the ordered list `"3. a"`, `"5. b"`, `"9. c"`
does not render as `"1. a"`, `"2. b"`, `"3. c"`: the first-line prefix is
padded to four columns, leaving two spaces after the dot. -/
theorem c4_cex :
    ¬ readmdFuel 20 [str "3. a", str "5. b", str "9. c"] 80 =
      [str "1. a", str "2. b", str "3. c"] := by decide

/-- **C4** (amended): irregular source numbers render sequentially from 1
as `"1.  a"`, `"2.  b"`, `"3.  c"` — the prefix `"<n>. "` padded to at
least four characters — regardless of the source numbers: the counter
increment ignores the source digits entirely, always bumping the previous
state's counter by one (so a fresh list starts at 0 + 1 = 1). -/
theorem c4_renumbering :
    readmdFuel 20 [str "3. a", str "5. b", str "9. c"] 80 =
      [str "1.  a", str "2.  b", str "3.  c"] ∧
    (∀ n : Nat, 4 ≤ (olPrefixOf n).length) ∧
    (∀ state prevState : ElemState,
      (incrementOlState state prevState).number = some (prevState.number.getD 0 + 1) ∧
      (incrementOlState state prevState).prefixFirst =
        olPrefixOf (prevState.number.getD 0 + 1)) :=
  ⟨by decide, olPrefixOf_length, fun state prevState => ⟨rfl, rfl⟩⟩

/-- **C5** (counterexample): on the two-line input `"Title"` / `"====="`
the program does not output `"# Title"` followed by a blank line. -/
theorem c5_cex :
    ¬ readmdFuel 20 [str "Title", str "====="] 80 = [str "# Title", str ""] := by
  decide

/-- **C5** (amended): the Setext header is preserved in Setext form: the
output is `"Title"`, then an underline of `=` repeated to the header
text's length, then one blank line — no canonicalization to ATX. -/
theorem c5_setext_preserved :
    readmdFuel 20 [str "Title", str "====="] 80 =
      [str "Title", str "=====", str ""] := by decide

/-- **C6** (confirmed): a group line ending in two-or-more trailing spaces
that is not the last line of its group (and is not blank) closes a
hard-break section that is not the last section, and the last line the
Fitter produces for that section (`with_break` set, as the renderer does
for every non-final section) ends in exactly 2 trailing spaces. -/
theorem c6_hard_break (g : List Str) (width : Int) (i : Nat) (li : Str)
    (hget : g.get? i = some li) (hlast : i + 1 < g.length)
    (hend : endsTwoSpaces li = true) (hstrip : stripWs li ≠ []) :
    ∃ (k : Nat) (sec : Str), (sectionsOf g).get? k = some sec ∧
      k + 1 < (sectionsOf g).length ∧ endsTwoSpaces sec = true ∧
      ∃ fl, (fitText sec width true).getLast? = some fl ∧ trailingSpaceCount fl = 2 := by
  obtain ⟨k, sec, h1, h2, h3, h4⟩ := sectionsAux_marker g 0 g.length [] [] i li
    (Nat.zero_add g.length).symm hget hlast hend hstrip
  exact ⟨k, sec, h1, h2, h3,
    fitText_break_last sec width (wordsOf_ne_nil_of_nonspace sec h4)⟩

/-- Witness for C6 on the group `["x  ", "y"]` at width 80. -/
theorem c6_witness :
    ∃ (k : Nat) (sec : Str), (sectionsOf [str "x  ", str "y"]).get? k = some sec ∧
      k + 1 < (sectionsOf [str "x  ", str "y"]).length ∧ endsTwoSpaces sec = true ∧
      ∃ fl, (fitText sec 80 true).getLast? = some fl ∧ trailingSpaceCount fl = 2 :=
  c6_hard_break [str "x  ", str "y"] 80 0 (str "x  ")
    (by decide) (by decide) (by decide) (by decide)

/-- **C7** (counterexample): the blockquote continuation strips the `>`
marker and ALL following whitespace, not just one space: on `">   a"` the
remainder appended to the group is `"a"`, not `"  a"`. -/
theorem c7_cex :
    (stepWith (fun _ _ o => o) 80 []
        { state := { type := some TYPE_BLOCK, prefixFirst := str "> ",
                     prefixRest := str "> " },
          group := [str "x"] }
        (str ">   a")).group = [str "x", str "a"] ∧
    ¬ (str "a") = (str "  a") :=
  ⟨by decide, by decide⟩

/-- **C7** (amended): when the open kind is Blockquote and the (normalized)
line begins with `>`, the step strips the marker and the whole following
whitespace run, inserts the hard-break sentinel first when a blank was
pending, sets `has_blank_line_pending` exactly when the remainder is
empty, and flushes nothing — output, flush count, state and the rest of
the group are untouched. -/
theorem c7_blockquote_continuation (recurse : List Str → Str → Output → Output)
    (width : Int) (indent : Str) (s : GState) (rawLine rest : Str)
    (hst : s.state.type = some TYPE_BLOCK)
    (hbq : bqParse (normalizeLine rawLine) = some rest) :
    stepWith recurse width indent s rawLine =
      { s with forcedBreak := false,
               group := s.group ++ (if s.hasBreak then [['\n']] else []) ++ [rest],
               hasBreak := rest.isEmpty } :=
  blockquote_continuation_step recurse width indent s rawLine rest hst hbq

/-- Witness for C7: a concrete blockquote continuation after a pending
blank line. -/
theorem c7_witness :
    stepWith (fun _ _ o => o) 80 []
        { state := { type := some TYPE_BLOCK }, group := [str "x"], hasBreak := true }
        (str "> b") =
      { state := { type := some TYPE_BLOCK },
        group := [str "x", str "\n", str "b"],
        hasBreak := false, forcedBreak := false, firstRender := true,
        prevState := {}, out := {}, flushes := 0 } := by
  have h := c7_blockquote_continuation (fun _ _ o => o) 80 []
    { state := { type := some TYPE_BLOCK }, group := [str "x"], hasBreak := true }
    (str "> b") (str "b") (by decide) (by decide)
  rw [h]
  decide

/-- **C8** (counterexample): a step can set a break flag to false without
any flush: with `forced_break` armed (as after a header) and an empty
group, a plain content line clears `forced_break` while the flush counter
stays unchanged. -/
theorem c8_cex :
    ({ forcedBreak := true } : GState).forcedBreak = true ∧
    (stepWith (fun _ _ o => o) 80 [] { forcedBreak := true } (str "x")).forcedBreak = false ∧
    (stepWith (fun _ _ o => o) 80 [] { forcedBreak := true } (str "x")).flushes =
      ({ forcedBreak := true } : GState).flushes :=
  ⟨by decide, by decide, by decide⟩

/-- **C8** (amended): every flush resets both flags to false; but flushes
are not the only resets: any non-blank line not handled as a Setext or
ATX header clears `forced_break`, and a blockquote continuation with a
non-empty remainder clears a pending `has_blank_line_pending` without
flushing (flush counter unchanged). -/
theorem c8_flag_resets :
    (∀ (recurse : List Str → Str → Output → Output) (width : Int) (indent : Str)
       (lineAfter : Bool) (s : GState),
      (doRenderGroupWith recurse width indent lineAfter s).hasBreak = false ∧
      (doRenderGroupWith recurse width indent lineAfter s).forcedBreak = false)
    ∧ (∀ (recurse : List Str → Str → Output → Output) (width : Int) (indent : Str)
         (s : GState) (rawLine : Str),
        stripWs (normalizeLine rawLine) ≠ [] →
        (s.hasBreak = true ∨ setextMatch (normalizeLine rawLine) = none) →
        atxHashes (normalizeLine rawLine) = none →
        (stepWith recurse width indent s rawLine).forcedBreak = false)
    ∧ (∀ (recurse : List Str → Str → Output → Output) (width : Int) (indent : Str)
         (s : GState) (rawLine rest : Str),
        s.state.type = some TYPE_BLOCK → bqParse (normalizeLine rawLine) = some rest →
        s.hasBreak = true → rest ≠ [] →
        (stepWith recurse width indent s rawLine).hasBreak = false ∧
        (stepWith recurse width indent s rawLine).flushes = s.flushes) := by
  refine ⟨fun r w ind la s => ⟨rfl, rfl⟩, ?_, ?_⟩
  · intro r w ind s raw h1 h2 h3
    rw [stepWith_content r w ind s raw h1 h2 h3]
    exact contentStep_forcedBreak r w ind s _
  · intro r w ind s raw rest hst hbq hhb hrest
    rw [blockquote_continuation_step r w ind s raw rest hst hbq]
    exact ⟨by simp [isEmpty_false_of_ne_nil rest hrest], rfl⟩

/-- Witness for C8 at concrete states and lines. -/
theorem c8_witness :
    (doRenderGroupWith (fun _ _ o => o) 80 [] true
        { hasBreak := true, forcedBreak := true }).hasBreak = false ∧
    (stepWith (fun _ _ o => o) 80 [] { forcedBreak := true } (str "y")).forcedBreak = false ∧
    (stepWith (fun _ _ o => o) 80 []
        { state := { type := some TYPE_BLOCK }, hasBreak := true, group := [str "q"] }
        (str "> z")).hasBreak = false :=
  ⟨(c8_flag_resets.1 (fun _ _ o => o) 80 [] true _).1,
   c8_flag_resets.2.1 (fun _ _ o => o) 80 [] _ (str "y")
     (by decide) (by decide) (by decide),
   (c8_flag_resets.2.2 (fun _ _ o => o) 80 [] _ (str "> z") (str "z")
     (by decide) (by decide) (by decide) (by decide)).1⟩

/-- **C9** (confirmed): a first line of a new group matching the
horizontal-rule pattern — at least three characters from `{*,-,_}`, each
optionally followed by whitespace, mixtures included — is classified
`HorizontalRule` and arms a pending blank-line break.  The hypotheses
make "first line of a new group" precise: the line is not captured as a
Setext underline (`has_break` set, or no Setext match), is not consumed
as a list-marker continuation, and actually opens a fresh group (empty
group, pending break, or a code block that the line terminates). -/
theorem c9_hr_classification (recurse : List Str → Str → Output → Output)
    (width : Int) (indent : Str) (s : GState) (rawLine : Str)
    (hhr : hrMatch (normalizeLine rawLine) = true)
    (hset : s.hasBreak = true ∨ setextMatch (normalizeLine rawLine) = none)
    (hcont : (s.state.type = some TYPE_UL ∨ s.state.type = some TYPE_OL) →
      (ulParse (normalizeLine rawLine) = none ∧ olParse (normalizeLine rawLine) = none))
    (hnew : s.group = [] ∨ s.hasBreak = true ∨ s.state.type = some TYPE_CODE) :
    (stepWith recurse width indent s rawLine).state.type = some TYPE_HR ∧
    (stepWith recurse width indent s rawLine).hasBreak = true :=
  hr_line_step recurse width indent s rawLine hhr hset hcont hnew

/-- Witness for C9 on the mixed-character rule line `"* - _"` (which also
matches the bullet pattern — the HR pattern wins by priority). -/
theorem c9_witness :
    (stepWith (fun _ _ o => o) 80 [] {} (str "* - _")).state.type = some TYPE_HR ∧
    (stepWith (fun _ _ o => o) 80 [] {} (str "* - _")).hasBreak = true :=
  c9_hr_classification (fun _ _ o => o) 80 [] {} (str "* - _")
    (by decide) (by decide) (by decide) (by decide)

/-- **C10** (confirmed): a `>` preceded by one-or-more leading spaces
never matches the blockquote pattern (anchored at column 0), so it is
never classified Blockquote and never treated as a blockquote
continuation; with at most 3 leading spaces such a line classifies as
Plain (no special type); and bullet and ordered-number markers are
recognized with up to 3 leading spaces. -/
theorem c10_indented_markers :
    (∀ (n : Nat) (r : Str), 1 ≤ n →
      bqParse (List.replicate n ' ' ++ '>' :: r) = none)
    ∧ (∀ (recurse : List Str → Str → Output → Output) (width : Int) (indent : Str)
         (s : GState) (l : Str) (n : Nat) (r : Str),
        1 ≤ n → l = List.replicate n ' ' ++ '>' :: r →
        s.state.type = some TYPE_BLOCK →
        contTry recurse width indent s l = (s, l, false))
    ∧ (∀ (s : GState) (n : Nat) (r : Str), 1 ≤ n → n ≤ 3 →
        (classifyStep s (List.replicate n ' ' ++ '>' :: r)).state.type = none)
    ∧ (∀ (n : Nat) (b : Char) (r : Str), n ≤ 3 → (b = '*' ∨ b = '+' ∨ b = '-') →
        ulParse (List.replicate n ' ' ++ b :: ' ' :: r) = some (b, r.dropWhile isWs))
    ∧ (∀ (n : Nat) (d : Str) (r : Str), n ≤ 3 → d ≠ [] → (∀ x ∈ d, x.isDigit = true) →
        olParse (List.replicate n ' ' ++ (d ++ '.' :: ' ' :: r)) =
          some (r.dropWhile isWs)) :=
  ⟨fun n r hn => bqParse_indented n r hn,
   fun recurse width indent s l n r hn hl hst =>
     contTry_indented_bq recurse width indent s l n r hn hl hst,
   fun s n r hn hn3 => classify_indented_bq_plain s n r hn hn3,
   fun n b r hn3 hb => ulParse_recognized n b r hn3 hb,
   fun n d r hn3 hd hdig => olParse_recognized n d r hn3 hd hdig⟩

/-- Witness for C10 at concrete indented lines and markers. -/
theorem c10_witness :
    bqParse (List.replicate 1 ' ' ++ '>' :: str "x") = none ∧
    (classifyStep {} (List.replicate 2 ' ' ++ '>' :: str "x")).state.type = none ∧
    ulParse (List.replicate 2 ' ' ++ '*' :: ' ' :: str "it") = some ('*', str "it") ∧
    olParse (List.replicate 1 ' ' ++ (str "12" ++ '.' :: ' ' :: str "it")) =
      some (str "it") := by
  refine ⟨c10_indented_markers.1 1 (str "x") (by decide),
    c10_indented_markers.2.2.1 {} 2 (str "x") (by decide) (by decide), ?_, ?_⟩
  · rw [c10_indented_markers.2.2.2.1 2 '*' (str "it") (by decide) (by decide)]
    decide
  · rw [c10_indented_markers.2.2.2.2 1 (str "12") (str "it") (by decide) (by decide)
      (by decide)]
    decide

end Readmd
